import Mathlib

/-!
Verification of the storage/concurrency core of a relational storage engine
(buffer pool, LRU-K replacer, extendible hash table, B+ tree, lock manager).

Each C++ component is shallowly embedded as executable Lean definitions that
mirror the source functions statement by statement; theorems then settle the
specification claims against these definitions.

Machine integers (`size_t`, `int`) are modelled as `Nat`/`Int`; the single
place where unsigned wrap-around is semantically significant is the LRU-K
replacer, where `(size_t)-1` encodes the infinite backward k-distance.  There
we use the explicit constant `U64MAX = 2^64 - 1` and state theorems under the
(physically always true) hypothesis that timestamps stay below that bound.
-/

set_option linter.unusedVariables false
set_option linter.unusedSectionVars false

def U64MAX : Nat := 2 ^ 64 - 1

/-! ## LRU-K replacer (`src/buffer/lru_k_replacer.cpp`)

A frame node (`LRUKReplacer::FrameNode`) holds a bounded queue of access
timestamps (`history_access_`, front = oldest in window), the number of
recorded accesses `cnt_` (trimmed to the window size `k`), the present flag
`status_` and the `evictable_` flag.  The replacer keeps a map from frame id
to node, a count `curr_size_` of evictable present frames and a logical
clock `current_timestamp_`. -/

namespace LRUK

structure FrameNode where
  evictable : Bool
  status : Nat
  cnt : Nat
  queueSize : Nat
  history : List Nat
deriving Repr, DecidableEq

/-- `FrameNode::FrameNode(size_t queue_size)`: fresh node, note
`evictable_(true), status_(0), cnt_(0)` and an empty history queue. -/
def FrameNode.new (k : Nat) : FrameNode :=
  { evictable := true, status := 0, cnt := 0, queueSize := k, history := [] }

/-- `FrameNode::Init()`: reset to the freshly-constructed state. -/
def FrameNode.reset (n : FrameNode) : FrameNode :=
  { evictable := true, status := 0, cnt := 0, queueSize := n.queueSize, history := [] }

structure Replacer where
  frames : List (Nat × FrameNode)
  k : Nat
  currSize : Nat
  currentTimestamp : Nat
deriving Repr, DecidableEq

/-- `LRUKReplacer::LRUKReplacer(num_frames, k)`: pre-populates the frame map
for ids `0 .. num_frames` (note the `<=` bound in the source loop). -/
def mkReplacer (numFrames k : Nat) : Replacer :=
  { frames := (List.range (numFrames + 1)).map (fun i => (i, FrameNode.new k))
    k := k
    currSize := 0
    currentTimestamp := 0 }

def updateFrame (l : List (Nat × FrameNode)) (fid : Nat) (g : FrameNode → FrameNode) :
    List (Nat × FrameNode) :=
  l.map (fun p => if p.1 = fid then (p.1, g p.2) else p)

/-- Front of the access-history window (`history_access_->front()`).
Only read on present frames, whose history is non-empty. -/
def frontTs (n : FrameNode) : Nat := n.history.headD 0

/-- The quantity `dis` computed inside `Evict`'s scan:
`cnt < k_ ? (size_t)-1 : current_timestamp_ - timestamp`.  The cast of `-1`
to `size_t` encodes the infinite backward k-distance as `U64MAX`. -/
def kDistOf (now k : Nat) (n : FrameNode) : Nat :=
  if n.cnt < k then U64MAX else now - frontTs n

/-- A frame the `Evict` scan considers: present (`status_ != 0`) and
evictable. -/
def isCand (n : FrameNode) : Bool := (n.status != 0) && n.evictable

def candCount (s : Replacer) : Nat := (s.frames.filter (fun p => isCand p.2)).length

/-- `LRUKReplacer::RecordAccess`.  Unknown frame ids are a precondition
violation in the source (`BUSTUB_ASSERT`); the model leaves the state
unchanged there. -/
def recordAccess (s : Replacer) (fid : Nat) : Replacer :=
  match s.frames.lookup fid with
  | none => s
  | some node =>
    let ts := s.currentTimestamp + 1
    if node.status = 0 then
      { s with
        frames := updateFrame s.frames fid
          (fun n => { n with history := n.history ++ [ts], cnt := 1, status := 1 })
        currSize := s.currSize + 1
        currentTimestamp := ts }
    else
      let n1 : FrameNode := { node with history := node.history ++ [ts], cnt := node.cnt + 1 }
      let n2 : FrameNode :=
        if n1.queueSize < n1.cnt then { n1 with history := n1.history.tail, cnt := n1.cnt - 1 }
        else n1
      { s with frames := updateFrame s.frames fid (fun _ => n2), currentTimestamp := ts }

/-- `LRUKReplacer::SetEvictable`. -/
def setEvictable (s : Replacer) (fid : Nat) (b : Bool) : Replacer :=
  match s.frames.lookup fid with
  | none => s
  | some node =>
    if node.status = 0 then s
    else if b && !node.evictable then
      { s with frames := updateFrame s.frames fid (fun n => { n with evictable := b })
               currSize := s.currSize + 1 }
    else if !b && node.evictable then
      { s with frames := updateFrame s.frames fid (fun n => { n with evictable := b })
               currSize := s.currSize - 1 }
    else s

/-- `LRUKReplacer::Remove`. -/
def removeFrame (s : Replacer) (fid : Nat) : Replacer :=
  match s.frames.lookup fid with
  | none => s
  | some node =>
    if node.status = 0 || !node.evictable then s
    else
      { s with frames := updateFrame s.frames fid FrameNode.reset, currSize := s.currSize - 1 }

/-- The scan inside `Evict`: walks the frame map keeping the best
`(k_dis, k_timestamp, frame_it)` seen so far.  The update condition mirrors
`dis > k_dis || (dis == k_dis && timestamp < k_timestamp)`. -/
def evictLoop (now k : Nat) : List (Nat × FrameNode) → Nat → Nat → Option Nat →
    Nat × Nat × Option Nat
  | [], kDis, kTs, best => (kDis, kTs, best)
  | (fid, node) :: rest, kDis, kTs, best =>
    if node.status = 0 ∨ node.evictable = false then
      evictLoop now k rest kDis kTs best
    else
      let ts := frontTs node
      let dis := kDistOf now k node
      if kDis < dis ∨ (dis = kDis ∧ ts < kTs) then
        evictLoop now k rest dis ts (some fid)
      else
        evictLoop now k rest kDis kTs best

/-- `LRUKReplacer::Evict`.  Initial accumulator: `k_dis = 0`,
`k_timestamp = (size_t)-1`, `frame_it = frame_cache_.begin()`.  The chosen
frame is reset (`Init()`) and `curr_size_` decremented. -/
def evict (s : Replacer) : Option (Nat × Replacer) :=
  if s.currSize = 0 then none
  else
    match evictLoop s.currentTimestamp s.k s.frames 0 U64MAX (s.frames.head?.map (·.1)) with
    | (_, _, none) => none
    | (_, _, some fid) =>
      some (fid, { s with frames := updateFrame s.frames fid FrameNode.reset
                          currSize := s.currSize - 1 })

def size (s : Replacer) : Nat := s.currSize

/-- `(d, t)` dominates node `n`: `n`'s distance is strictly smaller, or equal
with a front timestamp not below `t`. -/
def Dom (now k d t : Nat) (n : FrameNode) : Prop :=
  kDistOf now k n < d ∨ (kDistOf now k n = d ∧ t ≤ frontTs n)

/-- Accumulator order: the scan only moves the accumulator up in this order. -/
def AccLe (a b : Nat × Nat) : Prop :=
  a.1 < b.1 ∨ (a.1 = b.1 ∧ b.2 ≤ a.2)

theorem AccLe.refl (a : Nat × Nat) : AccLe a a := Or.inr ⟨rfl, Nat.le_refl _⟩

theorem AccLe.trans {a b c : Nat × Nat} (h1 : AccLe a b) (h2 : AccLe b c) : AccLe a c := by
  rcases h1 with h1 | ⟨h1, h1'⟩ <;> rcases h2 with h2 | ⟨h2, h2'⟩
  · exact Or.inl (h1.trans h2)
  · exact Or.inl (h2 ▸ h1)
  · exact Or.inl (h1 ▸ h2)
  · exact Or.inr ⟨h1.trans h2, h2'.trans h1'⟩

theorem Dom.mono {now k : Nat} {a b : Nat × Nat} {n : FrameNode}
    (hle : AccLe a b) (h : Dom now k a.1 a.2 n) : Dom now k b.1 b.2 n := by
  rcases hle with hlt | ⟨heq, hts⟩
  · rcases h with h | ⟨h, _⟩
    · exact Or.inl (h.trans hlt)
    · exact Or.inl (h ▸ hlt)
  · rcases h with h | ⟨h, h'⟩
    · exact Or.inl (heq ▸ h)
    · exact Or.inr ⟨heq ▸ h, hts.trans h'⟩

theorem evictLoop_accLe (now k : Nat) (l : List (Nat × FrameNode)) (kDis kTs : Nat)
    (best : Option Nat) :
    AccLe (kDis, kTs) ((evictLoop now k l kDis kTs best).1, (evictLoop now k l kDis kTs best).2.1) := by
  induction l generalizing kDis kTs best with
  | nil => exact AccLe.refl _
  | cons p rest ih =>
    obtain ⟨fid, node⟩ := p
    simp only [evictLoop]
    split
    · exact ih kDis kTs best
    · split
      · rename_i hcond
        refine AccLe.trans ?_ (ih _ _ _)
        rcases hcond with h | ⟨h, h'⟩
        · exact Or.inl h
        · exact Or.inr ⟨h.symm, Nat.le_of_lt h'⟩
      · exact ih kDis kTs best

theorem evictLoop_dom (now k : Nat) (l : List (Nat × FrameNode)) (kDis kTs : Nat)
    (best : Option Nat) :
    ∀ p ∈ l, isCand p.2 = true →
      Dom now k ((evictLoop now k l kDis kTs best).1) ((evictLoop now k l kDis kTs best).2.1) p.2 := by
  induction l generalizing kDis kTs best with
  | nil => intro p hp; simp at hp
  | cons q rest ih =>
    obtain ⟨fid, node⟩ := q
    intro p hp hcand
    simp only [List.mem_cons] at hp
    simp only [evictLoop]
    split
    · rename_i hskip
      rcases hp with rfl | hp
      · exfalso
        simp only [isCand, Bool.and_eq_true, bne_iff_ne, ne_eq] at hcand
        rcases hskip with h | h
        · exact hcand.1 h
        · rw [hcand.2] at h; simp at h
      · exact ih kDis kTs best p hp hcand
    · rename_i hskip
      split
      · rename_i hupd
        rcases hp with rfl | hp
        · exact Dom.mono (evictLoop_accLe now k rest (kDistOf now k node) (frontTs node) (some fid))
            (Or.inr ⟨rfl, Nat.le_refl _⟩)
        · exact ih _ _ _ p hp hcand
      · rename_i hupd
        rcases hp with rfl | hp
        · refine Dom.mono (evictLoop_accLe now k rest kDis kTs best) ?_
          push_neg at hupd
          rcases Nat.lt_or_ge (kDistOf now k node) kDis with h | h
          · exact Or.inl h
          · have h1 : kDistOf now k node = kDis := Nat.le_antisymm hupd.1 h
            exact Or.inr ⟨h1, hupd.2 h1⟩
        · exact ih kDis kTs best p hp hcand

theorem evictLoop_best (now k : Nat) (l : List (Nat × FrameNode)) (kDis kTs : Nat)
    (best : Option Nat) :
    ((evictLoop now k l kDis kTs best).2.2 = best ∧
      (evictLoop now k l kDis kTs best).1 = kDis ∧
      (evictLoop now k l kDis kTs best).2.1 = kTs) ∨
    (∃ p ∈ l, isCand p.2 = true ∧
      (evictLoop now k l kDis kTs best).2.2 = some p.1 ∧
      (evictLoop now k l kDis kTs best).1 = kDistOf now k p.2 ∧
      (evictLoop now k l kDis kTs best).2.1 = frontTs p.2) := by
  induction l generalizing kDis kTs best with
  | nil => exact Or.inl ⟨rfl, rfl, rfl⟩
  | cons q rest ih =>
    obtain ⟨fid, node⟩ := q
    simp only [evictLoop]
    split
    · rcases ih kDis kTs best with h | ⟨p, hp, h⟩
      · exact Or.inl h
      · exact Or.inr ⟨p, List.mem_cons_of_mem _ hp, h⟩
    · rename_i hskip
      have hcand : isCand node = true := by
        simp only [isCand, Bool.and_eq_true, bne_iff_ne, ne_eq]
        push_neg at hskip
        exact ⟨hskip.1, by simpa using hskip.2⟩
      split
      · rcases ih (kDistOf now k node) (frontTs node) (some fid) with h | ⟨p, hp, h⟩
        · exact Or.inr ⟨(fid, node), List.mem_cons_self _ _, hcand, h.1, h.2.1, h.2.2⟩
        · exact Or.inr ⟨p, List.mem_cons_of_mem _ hp, h⟩
      · rcases ih kDis kTs best with h | ⟨p, hp, h⟩
        · exact Or.inl h
        · exact Or.inr ⟨p, List.mem_cons_of_mem _ hp, h⟩

theorem evictLoop_kTs_lt (now k : Nat) (l : List (Nat × FrameNode)) (kDis kTs : Nat)
    (best : Option Nat)
    (hts : ∀ p ∈ l, isCand p.2 = true → frontTs p.2 ≤ now) (hnow : now < U64MAX)
    (hle : kTs ≤ U64MAX)
    (hz : kTs = U64MAX → kDis = 0)
    (hstart : kTs < U64MAX ∨ ∃ p ∈ l, isCand p.2 = true) :
    (evictLoop now k l kDis kTs best).2.1 < U64MAX := by
  induction l generalizing kDis kTs best with
  | nil =>
    rcases hstart with h | ⟨p, hp, _⟩
    · exact h
    · simp at hp
  | cons q rest ih =>
    obtain ⟨fid, node⟩ := q
    have htsrest : ∀ p ∈ rest, isCand p.2 = true → frontTs p.2 ≤ now :=
      fun p hp => hts p (List.mem_cons_of_mem _ hp)
    simp only [evictLoop]
    split
    · rename_i hskip
      refine ih kDis kTs best htsrest hle hz ?_
      rcases hstart with h | ⟨p, hp, hcand⟩
      · exact Or.inl h
      · rcases List.mem_cons.mp hp with rfl | hp
        · exfalso
          simp only [isCand, Bool.and_eq_true, bne_iff_ne, ne_eq] at hcand
          rcases hskip with h | h
          · exact hcand.1 h
          · rw [hcand.2] at h; simp at h
        · exact Or.inr ⟨p, hp, hcand⟩
    · rename_i hskip
      have hcand : isCand node = true := by
        simp only [isCand, Bool.and_eq_true, bne_iff_ne, ne_eq]
        push_neg at hskip
        exact ⟨hskip.1, by simpa using hskip.2⟩
      have htsq : frontTs node ≤ now := hts (fid, node) (List.mem_cons_self _ _) hcand
      split
      · refine ih _ _ _ htsrest (Nat.le_of_lt (Nat.lt_of_le_of_lt htsq hnow)) ?_ ?_
        · intro h; exact absurd h (Nat.ne_of_lt (Nat.lt_of_le_of_lt htsq hnow))
        · exact Or.inl (Nat.lt_of_le_of_lt htsq hnow)
      · rename_i hupd
        refine ih kDis kTs best htsrest hle hz ?_
        rcases Nat.lt_or_ge kTs U64MAX with h | h
        · exact Or.inl h
        · exfalso
          have hk : kTs = U64MAX := Nat.le_antisymm hle h
          have hkd : kDis = 0 := hz hk
          push_neg at hupd
          have h1 : kDistOf now k node ≤ kDis := hupd.1
          have h2 : kDistOf now k node = kDis → kTs ≤ frontTs node := hupd.2
          have h3 : frontTs node < U64MAX := Nat.lt_of_le_of_lt htsq hnow
          have h4 : kDistOf now k node = kDis := by omega
          have h5 := h2 h4
          omega

theorem updateFrame_cons (a : Nat) (b : FrameNode) (l : List (Nat × FrameNode)) (f : Nat)
    (g : FrameNode → FrameNode) :
    updateFrame ((a, b) :: l) f g = (if a = f then (a, g b) else (a, b)) :: updateFrame l f g := rfl

theorem lookup_cons (f a : Nat) (b : FrameNode) (l : List (Nat × FrameNode)) :
    List.lookup f ((a, b) :: l) = if f = a then some b else List.lookup f l := by
  by_cases h : f = a
  · rw [if_pos h, List.lookup, show (f == a) = true by simpa using h]
  · rw [if_neg h, List.lookup, show (f == a) = false by simpa using h]

theorem lookup_updateFrame_self (l : List (Nat × FrameNode)) (f : Nat) (g : FrameNode → FrameNode) :
    List.lookup f (updateFrame l f g) = (List.lookup f l).map g := by
  induction l with
  | nil => rfl
  | cons p rest ih =>
    obtain ⟨a, b⟩ := p
    rw [updateFrame_cons]
    by_cases h : a = f
    · subst h
      rw [if_pos rfl, lookup_cons, lookup_cons, if_pos rfl, if_pos rfl]
      rfl
    · rw [if_neg h, lookup_cons, lookup_cons, if_neg (fun hc => h hc.symm),
        if_neg (fun hc => h hc.symm)]
      exact ih

/-- C3: for every consistent replacer state with at least one evictable
present frame (and timestamps below the `size_t` wrap, which always holds
physically), `Evict` succeeds and returns a present evictable frame whose
backward k-distance is maximal; any other candidate either has a strictly
smaller distance or ties and has a front-of-window timestamp no smaller
than the chosen frame's. -/
theorem lruk_evict_max_backward_k_distance (s : Replacer)
    (hcons : s.currSize = candCount s)
    (hone : 1 ≤ candCount s)
    (hts : ∀ p ∈ s.frames, isCand p.2 = true → frontTs p.2 ≤ s.currentTimestamp)
    (hnow : s.currentTimestamp < U64MAX) :
    ∃ f s' node, evict s = some (f, s') ∧ (f, node) ∈ s.frames ∧ isCand node = true ∧
      ∀ q ∈ s.frames, isCand q.2 = true →
        kDistOf s.currentTimestamp s.k q.2 < kDistOf s.currentTimestamp s.k node ∨
        (kDistOf s.currentTimestamp s.k q.2 = kDistOf s.currentTimestamp s.k node ∧
          frontTs node ≤ frontTs q.2) := by
  have hne : ¬ s.currSize = 0 := by omega
  obtain ⟨p, hmemp, hcandp⟩ : ∃ p ∈ s.frames, isCand p.2 = true := by
    have hpos : 0 < (s.frames.filter (fun p => isCand p.2)).length := hone
    obtain ⟨a, ha⟩ := List.exists_mem_of_length_pos hpos
    exact ⟨a, (List.mem_filter.mp ha).1, (List.mem_filter.mp ha).2⟩
  have hlt := evictLoop_kTs_lt s.currentTimestamp s.k s.frames 0 U64MAX
      (s.frames.head?.map (·.1)) hts hnow (Nat.le_refl _) (fun _ => rfl)
      (Or.inr ⟨p, hmemp, hcandp⟩)
  have hbest := evictLoop_best s.currentTimestamp s.k s.frames 0 U64MAX
      (s.frames.head?.map (·.1))
  have hdom := evictLoop_dom s.currentTimestamp s.k s.frames 0 U64MAX
      (s.frames.head?.map (·.1))
  rcases hE : evictLoop s.currentTimestamp s.k s.frames 0 U64MAX (s.frames.head?.map (·.1))
    with ⟨d, t, b⟩
  rw [hE] at hlt hbest
  simp only at hlt hbest
  rcases hbest with ⟨hb, hd1, ht1⟩ | ⟨q, hq, hcandq, hb, hd1, ht1⟩
  · rw [ht1] at hlt; exact absurd hlt (lt_irrefl _)
  · obtain ⟨qf, qn⟩ := q
    subst hb
    refine ⟨qf, { s with frames := updateFrame s.frames qf FrameNode.reset
                         currSize := s.currSize - 1 }, qn, ?_, hq, hcandq, ?_⟩
    · simp only [evict, if_neg hne, hE]
    · intro r hr hcandr
      have hD := hdom r hr hcandr
      rw [hE] at hD
      simp only at hD
      rw [hd1, ht1] at hD
      exact hD

/-- C3 witness: the state reached by `mkReplacer 3 2` after recording the
access sequence 1,2,3,1,2,3,1,2; `Evict` returns frame 3, the frame with
the largest backward 2-distance. -/
theorem lruk_evict_max_backward_k_distance_witness :
    (let s := List.foldl recordAccess (mkReplacer 3 2) [1, 2, 3, 1, 2, 3, 1, 2]
     s.currSize = candCount s ∧ 1 ≤ candCount s ∧
      (∀ p ∈ s.frames, isCand p.2 = true → frontTs p.2 ≤ s.currentTimestamp) ∧
      s.currentTimestamp < U64MAX) ∧
    (∃ f s' node,
      evict (List.foldl recordAccess (mkReplacer 3 2) [1, 2, 3, 1, 2, 3, 1, 2]) = some (f, s') ∧
      (f, node) ∈ (List.foldl recordAccess (mkReplacer 3 2) [1, 2, 3, 1, 2, 3, 1, 2]).frames ∧
      isCand node = true ∧
      ∀ q ∈ (List.foldl recordAccess (mkReplacer 3 2) [1, 2, 3, 1, 2, 3, 1, 2]).frames,
        isCand q.2 = true →
        kDistOf 8 2 q.2 < kDistOf 8 2 node ∨
        (kDistOf 8 2 q.2 = kDistOf 8 2 node ∧ frontTs node ≤ frontTs q.2)) := by
  refine ⟨⟨by decide, by decide, by decide, by decide⟩, ?_⟩
  exact lruk_evict_max_backward_k_distance _ (by decide) (by decide) (by decide) (by decide)

theorem lookup_mem {l : List (Nat × FrameNode)} {f : Nat} {b : FrameNode}
    (h : l.lookup f = some b) : (f, b) ∈ l := by
  induction l with
  | nil => simp [List.lookup] at h
  | cons p rest ih =>
    obtain ⟨a, c⟩ := p
    rw [lookup_cons] at h
    by_cases hfa : f = a
    · rw [if_pos hfa] at h
      obtain rfl := Option.some_injective _ h
      subst hfa
      exact List.mem_cons_self _ _
    · rw [if_neg hfa] at h
      exact List.mem_cons_of_mem _ (ih h)

theorem lookup_eq_of_mem_nodup {l : List (Nat × FrameNode)} {f : Nat} {x : FrameNode}
    (hnodup : (l.map Prod.fst).Nodup) (hmem : (f, x) ∈ l) : l.lookup f = some x := by
  induction l with
  | nil => simp at hmem
  | cons p rest ih =>
    obtain ⟨a, c⟩ := p
    simp only [List.map_cons, List.nodup_cons] at hnodup
    rcases List.mem_cons.mp hmem with h | h
    · obtain ⟨rfl, rfl⟩ := Prod.ext_iff.mp h
      rw [lookup_cons, if_pos rfl]
    · have hfa : f ≠ a := by
        intro hfa
        exact hnodup.1 (hfa ▸ List.mem_map.mpr ⟨(f, x), h, rfl⟩)
      rw [lookup_cons, if_neg hfa]
      exact ih hnodup.2 h

/-- C10: a frame with no recorded history is represented by a freshly
constructed `FrameNode`, whose `evictable_` flag is `true`; a single
`RecordAccess` therefore makes the frame present and immediately evictable:
`Size()` grows by one, and if no other frame is an eviction candidate, the
next `Evict` returns exactly this frame, with no intervening
`SetEvictable(f, true)`. -/
theorem lruk_fresh_frame_immediately_evictable (s : Replacer) (f : Nat)
    (hf : s.frames.lookup f = some (FrameNode.new s.k))
    (hnodup : (s.frames.map Prod.fst).Nodup)
    (hnow : s.currentTimestamp + 1 < U64MAX) :
    (FrameNode.new s.k).evictable = true ∧
    (recordAccess s f).currSize = s.currSize + 1 ∧
    (∃ node, (recordAccess s f).frames.lookup f = some node ∧ isCand node = true) ∧
    ((∀ p ∈ s.frames, p.1 ≠ f → isCand p.2 = false) →
      ∃ s', evict (recordAccess s f) = some (f, s')) := by
  have hra : recordAccess s f =
      { s with
        frames := updateFrame s.frames f
          (fun n => { n with history := n.history ++ [s.currentTimestamp + 1], cnt := 1, status := 1 })
        currSize := s.currSize + 1
        currentTimestamp := s.currentTimestamp + 1 } := by
    simp only [recordAccess, hf]
    rw [if_pos (show (FrameNode.new s.k).status = 0 from rfl)]
  refine ⟨rfl, by rw [hra], ?_, ?_⟩
  · refine ⟨FrameNode.mk true 1 1 s.k [s.currentTimestamp + 1], ?_, rfl⟩
    rw [hra]
    simp only
    rw [lookup_updateFrame_self, hf]
    rfl
  · intro hother
    have hmemf : (f, FrameNode.new s.k) ∈ s.frames := lookup_mem hf
    rw [hra]
    set ts := s.currentTimestamp + 1 with hts
    set g : FrameNode → FrameNode :=
      fun n => { n with history := n.history ++ [ts], cnt := 1, status := 1 } with hg
    set l' := updateFrame s.frames f g with hl'
    have hmem' : (f, g (FrameNode.new s.k)) ∈ l' := by
      rw [hl', updateFrame]
      exact List.mem_map.mpr ⟨(f, FrameNode.new s.k), hmemf, by simp⟩
    have hgfresh : g (FrameNode.new s.k) =
        { evictable := true, status := 1, cnt := 1, queueSize := s.k, history := [ts] } := rfl
    have hcandg : isCand (g (FrameNode.new s.k)) = true := by rw [hgfresh]; rfl
    have hcands : ∀ q ∈ l', isCand q.2 = true → q = (f, g (FrameNode.new s.k)) := by
      intro q hq hcq
      rw [hl', updateFrame] at hq
      obtain ⟨p, hp, hpq⟩ := List.mem_map.mp hq
      by_cases hpf : p.1 = f
      · have hpeq : p = (f, p.2) := by
          obtain ⟨p1, p2⟩ := p
          simp only at hpf
          rw [hpf]
        have hpx : (f, p.2) ∈ s.frames := hpeq ▸ hp
        have hlk := lookup_eq_of_mem_nodup hnodup hpx
        rw [hf] at hlk
        have hp2 : p.2 = FrameNode.new s.k := (Option.some_injective _ hlk).symm
        rw [← hpq, if_pos hpf, hpf, hp2]
      · rw [← hpq, if_neg hpf] at hcq ⊢
        exact absurd hcq (by simp [hother p hp hpf])
    have htsf : frontTs (g (FrameNode.new s.k)) = ts := by rw [hgfresh]; rfl
    have hts' : ∀ p ∈ l', isCand p.2 = true → frontTs p.2 ≤ ts := by
      intro p hp hcp
      rw [hcands p hp hcp]
      exact Nat.le_of_eq htsf
    have hlt := evictLoop_kTs_lt ts s.k l' 0 U64MAX (l'.head?.map (·.1)) hts'
        (hts ▸ hnow) (Nat.le_refl _) (fun _ => rfl)
        (Or.inr ⟨(f, g (FrameNode.new s.k)), hmem', hcandg⟩)
    have hbest := evictLoop_best ts s.k l' 0 U64MAX (l'.head?.map (·.1))
    rcases hE : evictLoop ts s.k l' 0 U64MAX (l'.head?.map (·.1)) with ⟨d, t, b⟩
    rw [hE] at hlt hbest
    simp only at hlt hbest
    rcases hbest with ⟨hb, hd1, ht1⟩ | ⟨q, hq, hcandq, hb, hd1, ht1⟩
    · rw [ht1] at hlt; exact absurd hlt (lt_irrefl _)
    · have hqf : q = (f, g (FrameNode.new s.k)) := hcands q hq hcandq
      rw [hqf] at hb
      refine ⟨Replacer.mk (updateFrame l' f FrameNode.reset) s.k (s.currSize + 1 - 1) ts, ?_⟩
      simp only [evict, if_neg (Nat.succ_ne_zero s.currSize), hE, hb]

/-- C10 witness: in a fresh replacer with three frames and `k = 2`, a single
`RecordAccess(1)` makes frame 1 evictable and the only eviction candidate. -/
theorem lruk_fresh_frame_immediately_evictable_witness :
    ((mkReplacer 3 2).frames.lookup 1 = some (FrameNode.new 2) ∧
      ((mkReplacer 3 2).frames.map Prod.fst).Nodup ∧
      (mkReplacer 3 2).currentTimestamp + 1 < U64MAX) ∧
    ((FrameNode.new 2).evictable = true ∧
      (recordAccess (mkReplacer 3 2) 1).currSize = (mkReplacer 3 2).currSize + 1 ∧
      (∃ node, (recordAccess (mkReplacer 3 2) 1).frames.lookup 1 = some node ∧
        isCand node = true) ∧
      ((∀ p ∈ (mkReplacer 3 2).frames, p.1 ≠ 1 → isCand p.2 = false) →
        ∃ s', evict (recordAccess (mkReplacer 3 2) 1) = some (1, s'))) := by
  refine ⟨⟨by decide, by decide, by decide⟩, ?_⟩
  exact lruk_fresh_frame_immediately_evictable (mkReplacer 3 2) 1 (by decide) (by decide) (by decide)

end LRUK

/-! ## Lock manager (`src/concurrency/lock_manager.cpp`)

Lock modes, transaction states, isolation levels and abort reasons are the
source enums.  A function that in the source sets the transaction state to
`ABORTED` and throws `TransactionAbortException(txn, reason)` is modelled as
returning `Except.error (reason, TransactionState.ABORTED)`. -/

namespace LM

deriving instance DecidableEq for Except

inductive LockMode
  | S | X | IS | IX | SIX
deriving DecidableEq, Repr, Fintype

inductive TransactionState
  | GROWING | SHRINKING | COMMITTED | ABORTED
deriving DecidableEq, Repr, Fintype

inductive IsolationLevel
  | REPEATABLE_READ | READ_COMMITTED | READ_UNCOMMITTED
deriving DecidableEq, Repr, Fintype

inductive AbortReason
  | UPGRADE_CONFLICT
  | INCOMPATIBLE_UPGRADE
  | LOCK_ON_SHRINKING
  | LOCK_SHARED_ON_READ_UNCOMMITTED
  | TABLE_LOCK_NOT_PRESENT
  | ATTEMPTED_UNLOCK_BUT_NO_LOCK_HELD
  | ATTEMPTED_INTENTION_LOCK_ON_ROW
  | TABLE_UNLOCKED_BEFORE_UNLOCKING_ROWS
deriving DecidableEq, Repr

/-- `LockManager::CanUpgradeLock(txn, cur_lock_mode, req_lock_mode)`: the
switch returns `true` for the allowed upgrade pairs and otherwise falls
through to `SetState(ABORTED)` + `throw INCOMPATIBLE_UPGRADE`. -/
def CanUpgradeLock (cur req : LockMode) : Except (AbortReason × TransactionState) Bool :=
  match cur with
  | .X => Except.error (.INCOMPATIBLE_UPGRADE, .ABORTED)
  | .IS =>
    if req = LockMode.S ∨ req = LockMode.X ∨ req = LockMode.IX ∨ req = LockMode.SIX then
      Except.ok true
    else Except.error (.INCOMPATIBLE_UPGRADE, .ABORTED)
  | .S | .IX =>
    if req = LockMode.X ∨ req = LockMode.SIX then Except.ok true
    else Except.error (.INCOMPATIBLE_UPGRADE, .ABORTED)
  | .SIX =>
    if req = LockMode.X then Except.ok true
    else Except.error (.INCOMPATIBLE_UPGRADE, .ABORTED)

/-- `LockManager::CheckLockTransactionState`: isolation-level validation of a
lock request; returns the (unchanged) transaction state or aborts. -/
def CheckLockTransactionState (lvl : IsolationLevel) (ts : TransactionState) (mode : LockMode) :
    Except (AbortReason × TransactionState) TransactionState :=
  match lvl with
  | .REPEATABLE_READ =>
    if ts = TransactionState.SHRINKING then Except.error (.LOCK_ON_SHRINKING, .ABORTED)
    else Except.ok ts
  | .READ_COMMITTED =>
    if ts = TransactionState.SHRINKING ∧ (mode ≠ LockMode.S ∧ mode ≠ LockMode.IS) then
      Except.error (.LOCK_ON_SHRINKING, .ABORTED)
    else Except.ok ts
  | .READ_UNCOMMITTED =>
    if mode ≠ LockMode.IX ∧ mode ≠ LockMode.X then
      Except.error (.LOCK_SHARED_ON_READ_UNCOMMITTED, .ABORTED)
    else if ts = TransactionState.SHRINKING then Except.error (.LOCK_ON_SHRINKING, .ABORTED)
    else Except.ok ts

/-- `LockManager::CheckUnlockTransactionState`: isolation-level state
transition on releasing a granted lock of mode `mode`. -/
def CheckUnlockTransactionState (lvl : IsolationLevel) (ts : TransactionState) (mode : LockMode) :
    Except (AbortReason × TransactionState) TransactionState :=
  match lvl with
  | .REPEATABLE_READ =>
    if (mode = LockMode.S ∨ mode = LockMode.X) ∧ ts = TransactionState.GROWING then
      Except.ok TransactionState.SHRINKING
    else Except.ok ts
  | .READ_COMMITTED =>
    if mode = LockMode.X ∧ ts = TransactionState.GROWING then
      Except.ok TransactionState.SHRINKING
    else Except.ok ts
  | .READ_UNCOMMITTED =>
    let ts1 := if mode = LockMode.X ∧ ts = TransactionState.GROWING then
      TransactionState.SHRINKING else ts
    if mode = LockMode.S then Except.error (.LOCK_SHARED_ON_READ_UNCOMMITTED, .ABORTED)
    else Except.ok ts1

/-- `LockManager::IsCompatible(lock_mode1, lock_mode2)`: the compatibility
matrix, `lock_mode1` being the mode of the request placed later in the
queue. -/
def IsCompatible (m1 m2 : LockMode) : Bool :=
  match m1 with
  | .S => match m2 with | .S | .IS => true | _ => false
  | .X => false
  | .IS => match m2 with | .X => false | _ => true
  | .IX => match m2 with | .IX | .IS => true | _ => false
  | .SIX => match m2 with | .IS => true | _ => false

/-- C7: a transaction holding `cur` and requesting a different mode `req`
proceeds as an upgrade exactly for the pairs of the upgrade lattice
IS→{S,X,IX,SIX}, S→{X,SIX}, IX→{X,SIX}, SIX→X; every other pair raises
`INCOMPATIBLE_UPGRADE` and sets the transaction state to `ABORTED`. -/
theorem lockmgr_upgrade_lattice :
    ∀ cur req : LockMode, cur ≠ req →
      ((CanUpgradeLock cur req = Except.ok true ↔
        ((cur = LockMode.IS ∧ (req = LockMode.S ∨ req = LockMode.X ∨ req = LockMode.IX ∨
            req = LockMode.SIX)) ∨
         (cur = LockMode.S ∧ (req = LockMode.X ∨ req = LockMode.SIX)) ∨
         (cur = LockMode.IX ∧ (req = LockMode.X ∨ req = LockMode.SIX)) ∨
         (cur = LockMode.SIX ∧ req = LockMode.X))) ∧
       (CanUpgradeLock cur req ≠ Except.ok true →
        CanUpgradeLock cur req =
          Except.error (AbortReason.INCOMPATIBLE_UPGRADE, TransactionState.ABORTED))) := by
  decide

/-- C7 witness: held IS, requested X is a legal upgrade; held S, requested
IS aborts with `INCOMPATIBLE_UPGRADE`. -/
theorem lockmgr_upgrade_lattice_witness :
    CanUpgradeLock LockMode.IS LockMode.X = Except.ok true ∧
    CanUpgradeLock LockMode.S LockMode.IS =
      Except.error (AbortReason.INCOMPATIBLE_UPGRADE, TransactionState.ABORTED) :=
  ⟨((lockmgr_upgrade_lattice LockMode.IS LockMode.X (by decide)).1).mpr
      (Or.inl ⟨rfl, Or.inr (Or.inl rfl)⟩),
   (lockmgr_upgrade_lattice LockMode.S LockMode.IS (by decide)).2 (by decide)⟩

/-- C8: under REPEATABLE_READ any lock request while SHRINKING aborts with
`LOCK_ON_SHRINKING` and releasing S or X in GROWING moves the transaction to
SHRINKING; under READ_COMMITTED, S/IS requests are allowed while SHRINKING,
X/IX/SIX requests abort, and only releasing X moves GROWING to SHRINKING
(releasing S does not). -/
theorem lockmgr_isolation_transitions :
    ∀ (ts : TransactionState) (mode : LockMode),
      (ts = TransactionState.SHRINKING →
        CheckLockTransactionState IsolationLevel.REPEATABLE_READ ts mode =
          Except.error (AbortReason.LOCK_ON_SHRINKING, TransactionState.ABORTED)) ∧
      ((mode = LockMode.S ∨ mode = LockMode.X) →
        CheckUnlockTransactionState IsolationLevel.REPEATABLE_READ TransactionState.GROWING mode =
          Except.ok TransactionState.SHRINKING) ∧
      ((mode = LockMode.S ∨ mode = LockMode.IS) →
        CheckLockTransactionState IsolationLevel.READ_COMMITTED TransactionState.SHRINKING mode =
          Except.ok TransactionState.SHRINKING) ∧
      ((mode = LockMode.X ∨ mode = LockMode.IX ∨ mode = LockMode.SIX) →
        CheckLockTransactionState IsolationLevel.READ_COMMITTED TransactionState.SHRINKING mode =
          Except.error (AbortReason.LOCK_ON_SHRINKING, TransactionState.ABORTED)) ∧
      (CheckUnlockTransactionState IsolationLevel.READ_COMMITTED TransactionState.GROWING
          LockMode.X = Except.ok TransactionState.SHRINKING) ∧
      (mode ≠ LockMode.X →
        CheckUnlockTransactionState IsolationLevel.READ_COMMITTED TransactionState.GROWING mode =
          Except.ok TransactionState.GROWING) := by
  intro ts mode
  cases ts <;> cases mode <;> decide

/-- C8 witness: a REPEATABLE_READ transaction in SHRINKING is aborted on an
X request; releasing S under READ_COMMITTED keeps the state GROWING. -/
theorem lockmgr_isolation_transitions_witness :
    CheckLockTransactionState IsolationLevel.REPEATABLE_READ TransactionState.SHRINKING
      LockMode.X = Except.error (AbortReason.LOCK_ON_SHRINKING, TransactionState.ABORTED) ∧
    CheckUnlockTransactionState IsolationLevel.READ_COMMITTED TransactionState.GROWING
      LockMode.S = Except.ok TransactionState.GROWING :=
  ⟨(lockmgr_isolation_transitions TransactionState.SHRINKING LockMode.X).1 rfl,
   (lockmgr_isolation_transitions TransactionState.GROWING LockMode.S).2.2.2.2.2 (by decide)⟩

/-! ### Waits-for graph and deadlock detection

`waits_for_` is a `std::map<txn_id_t, std::vector<txn_id_t>>`; modelled as an
association list from txn id to its (sorted) neighbour vector.  `HasCycle`
sorts the keys itself, so the association-list order is immaterial. -/

def Graph := List (Int × List Int)

def neighborsOf (g : Graph) (t : Int) : List Int := (List.lookup t g).getD []

def setNeighbors (g : Graph) (t : Int) (vs : List Int) : Graph :=
  match g with
  | [] => [(t, vs)]
  | (k, ws) :: rest => if k = t then (k, vs) :: rest else (k, ws) :: setNeighbors rest t vs

/-- The sorted insertion of `LockManager::AddEdge`: find the first neighbour
`≥ t2`; absent → push back; present and different → insert before it. -/
def insertSortedEdge (l : List Int) (t2 : Int) : List Int :=
  match l with
  | [] => [t2]
  | x :: xs =>
    if t2 ≤ x then (if x = t2 then x :: xs else t2 :: x :: xs)
    else x :: insertSortedEdge xs t2

def addEdge (g : Graph) (t1 t2 : Int) : Graph :=
  setNeighbors g t1 (insertSortedEdge (neighborsOf g t1) t2)

/-- One `LockManager::DFSHasCyCleL` call, fused with its neighbour loop.
`vis` is the set of traversed edges, `has` the set of txn ids on the current
path.  On a back edge into `has`, the source returns `now` as the victim.
`fuel` bounds the recursion depth; every evaluation below supplies enough
fuel (the function only recurses along unvisited edges, of which there are
finitely many). -/
def dfsLoop (g : Graph) : Nat → List Int → List (Int × Int) → List Int → Int →
    Option Int × List (Int × Int)
  | 0, _, vis, _, _ => (none, vis)
  | fuel + 1, l, vis, has, now =>
    match l with
    | [] => (none, vis)
    | next :: rest =>
      if (now, next) ∈ vis then dfsLoop g fuel rest vis has now
      else
        let vis1 := (now, next) :: vis
        if next ∈ has then (some now, vis1)
        else
          match dfsLoop g fuel (neighborsOf g next) vis1 (next :: has) next with
          | (some v, vis2) => (some v, vis2)
          | (none, vis2) => dfsLoop g fuel rest vis2 has now

/-- `LockManager::HasCycle`: DFS from every key in ascending order, sharing
the visited-edge set `vis` across starts; the path set `has` starts as
`{key}`. -/
def hasCycleFrom (g : Graph) (fuel : Nat) (keys : List Int) (vis : List (Int × Int)) :
    Option Int :=
  match keys with
  | [] => none
  | key :: rest =>
    match dfsLoop g fuel (neighborsOf g key) vis [key] key with
    | (some v, _) => some v
    | (none, vis1) => hasCycleFrom g fuel rest vis1

def insertAsc (x : Int) : List Int → List Int
  | [] => [x]
  | y :: ys => if x ≤ y then x :: y :: ys else y :: insertAsc x ys

/-- The ascending `std::sort` of `ordered_keys` (keys are distinct, so
stability is irrelevant). -/
def sortKeys : List Int → List Int
  | [] => []
  | x :: xs => insertAsc x (sortKeys xs)

def hasCycle (g : Graph) (fuel : Nat) : Option Int :=
  hasCycleFrom g fuel (sortKeys (g.map (fun p => p.1))) []

/-- The victim-removal step of `LockManager::Detection`: erase the victim's
adjacency list and remove it from every other neighbour vector. -/
def removeTxn (g : Graph) (t : Int) : Graph :=
  (g.filter (fun p => p.1 ≠ t)).map (fun p => (p.1, p.2.filter (fun v => v ≠ t)))

/-- The `while (HasCycle(&txn_id))` loop of `LockManager::Detection`:
returns the victims aborted, in order. -/
def detectionVictims (g : Graph) (dfsFuel : Nat) : Nat → List Int
  | 0 => []
  | fuel + 1 =>
    match hasCycle g dfsFuel with
    | none => []
    | some v => v :: detectionVictims (removeTxn g v) dfsFuel fuel

structure LockRequest where
  txnId : Int
  mode : LockMode
  granted : Bool

/-- The inner pair handling of `LockManager::AddEdgeFromLRQ` for requests
`a` before `b` in the queue: incompatible modes produce a waits-for edge
from the ungranted to the granted request. -/
def addEdgesForPair (g : Graph) (a b : LockRequest) : Graph :=
  if IsCompatible a.mode b.mode then g
  else
    let g1 := if !a.granted && b.granted then addEdge g a.txnId b.txnId else g
    if !b.granted && a.granted then addEdge g1 b.txnId a.txnId else g1

/-- `LockManager::AddEdgeFromLRQ`: all ordered pairs `i` before `j`. -/
def addEdgeFromLRQ (g : Graph) : List LockRequest → Graph
  | [] => g
  | i :: rest => addEdgeFromLRQ (rest.foldl (fun acc j => addEdgesForPair acc i j) g) rest

/-- The graph-building phase of `LockManager::Detection` over all lock
request queues. -/
def buildGraph (queues : List (List LockRequest)) : Graph :=
  queues.foldl addEdgeFromLRQ []

def edgeIn (g : Graph) (a b : Int) : Bool := b ∈ neighborsOf g a

/-- `c` lists the vertices of a directed cycle of `g` (each vertex has an
edge to the next, and the last back to the first). -/
def isCycle (g : Graph) (c : List Int) : Bool :=
  match c with
  | [] => false
  | x :: _ => (c.zip (c.drop 1 ++ [x])).all (fun p => edgeIn g p.1 p.2)

/-- The waits-for graph produced by three queues: txn 3 holds X on A with
txn 1 waiting, txn 2 holds X on B with txn 3 waiting, txn 1 holds X on C
with txn 2 waiting.  Its unique cycle is 1 → 3 → 2 → 1. -/
def G0 : Graph :=
  buildGraph
    [[⟨3, LockMode.X, true⟩, ⟨1, LockMode.X, false⟩],
     [⟨2, LockMode.X, true⟩, ⟨3, LockMode.X, false⟩],
     [⟨1, LockMode.X, true⟩, ⟨2, LockMode.X, false⟩]]

/-- C1 (refuting evaluation): on the waits-for graph `G0` — reachable from
three lock-request queues — the detection pass aborts txn 2 (the vertex at
which the ascending-order DFS closes its back edge), although the cycle
1 → 3 → 2 → 1 it lies on contains txn 3 > 2.  The claim "the victim is the
transaction with the largest txn_id on the cycle" — which the source's own
comment above the `while (HasCycle...)` loop also states — is violated. -/
theorem deadlock_victim_not_max_on_cycle :
    G0 = [(1, [3]), (3, [2]), (2, [1])] ∧
    hasCycle G0 100 = some 2 ∧
    detectionVictims G0 100 10 = [2] ∧
    isCycle G0 [1, 3, 2] = true ∧
    (2 : Int) ∈ [(1 : Int), 3, 2] ∧ (3 : Int) ∈ [(1 : Int), 3, 2] ∧
    (2 : Int) < 3 ∧
    hasCycle G0 100 ≠ some 3 := by
  refine ⟨rfl, rfl, rfl, rfl, by decide, by decide, by decide, by decide⟩

end LM

/-! ## Extendible hash table (`src/container/hash/extendible_hash_table.cpp`)

The directory (`dir_`) is a vector of `shared_ptr<Bucket>`; aliasing between
slots is semantically relevant, so the model keeps the buckets in a `store`
list and the directory holds indices into it: two slots alias the same
bucket exactly when they hold the same store index.  The hash function is a
parameter `h`; `IndexOf` masks it with the low `global_depth_` bits, i.e.
reduces it mod `2 ^ globalDepth`.

A bucket's `mp_` is a unique-key map of at most `bucket_size` entries;
it is modelled as an association list (`Find`/`Insert`/`Remove` only use
map semantics, and the iteration order of `GetItems` is irrelevant: during
a split the items are partitioned by one hash bit into two fresh buckets,
and `Bucket::Insert` on a fresh bucket with unique keys and at most
`bucket_size` incoming items always takes the plain `emplace` path). -/

namespace EHT

structure Bucket (β : Type) where
  items : List (Nat × β)
  sizeCap : Nat
  depth : Nat
deriving Repr, DecidableEq

def replaceValue {β : Type} : List (Nat × β) → Nat → β → List (Nat × β)
  | [], _, _ => []
  | (a, c) :: rest, k, v => if a = k then (a, v) :: rest else (a, c) :: replaceValue rest k v

def removeKey {β : Type} : List (Nat × β) → Nat → List (Nat × β)
  | [], _ => []
  | (a, c) :: rest, k => if a = k then rest else (a, c) :: removeKey rest k

/-- `Bucket::Find`. -/
def Bucket.find {β : Type} (b : Bucket β) (k : Nat) : Option β := b.items.lookup k

def Bucket.isFull {β : Type} (b : Bucket β) : Bool := b.sizeCap ≤ b.items.length

/-- `Bucket::Insert`: replace the value of an existing key; otherwise fail
on a full bucket, else emplace. `none` models the `false` return. -/
def Bucket.insert {β : Type} (b : Bucket β) (k : Nat) (v : β) : Option (Bucket β) :=
  if (b.items.lookup k).isSome then some { b with items := replaceValue b.items k v }
  else if b.isFull then none
  else some { b with items := b.items ++ [(k, v)] }

/-- `Bucket::Remove`: `none` models the `false` return (key absent). -/
def Bucket.remove {β : Type} (b : Bucket β) (k : Nat) : Option (Bucket β) :=
  if (b.items.lookup k).isSome then some { b with items := removeKey b.items k }
  else none

structure HashTable (β : Type) where
  globalDepth : Nat
  bucketSize : Nat
  numBuckets : Nat
  store : List (Bucket β)
  dir : List Nat
deriving Repr, DecidableEq

/-- `ExtendibleHashTable(bucket_size)`: one empty depth-0 bucket, directory
of size `1 = 2^0`. -/
def mkTable (β : Type) (bucketSize : Nat) : HashTable β :=
  { globalDepth := 0, bucketSize := bucketSize, numBuckets := 1
    store := [Bucket.mk [] bucketSize 0], dir := [0] }

/-- `IndexOf`: `hash & ((1 << G) - 1)`. -/
def indexOf {β : Type} (h : Nat → Nat) (t : HashTable β) (k : Nat) : Nat :=
  h k % 2 ^ t.globalDepth

def dirIdx {β : Type} (t : HashTable β) (i : Nat) : Nat := t.dir.getD i 0

def junkBucket (β : Type) [Inhabited β] : Bucket β := Bucket.mk [] 0 0

def bucketAt {β : Type} [Inhabited β] (t : HashTable β) (i : Nat) : Bucket β :=
  t.store.getD (dirIdx t i) (junkBucket β)

def setStore {β : Type} (t : HashTable β) (j : Nat) (b : Bucket β) : HashTable β :=
  { t with store := t.store.set j b }

/-- `ExtendibleHashTable::Find`. -/
def find {β : Type} [Inhabited β] (h : Nat → Nat) (t : HashTable β) (k : Nat) : Option β :=
  (bucketAt t (indexOf h t k)).find k

/-- `ExtendibleHashTable::Remove` (state effect). -/
def removeState {β : Type} [Inhabited β] (h : Nat → Nat) (t : HashTable β) (k : Nat) :
    HashTable β :=
  match (bucketAt t (indexOf h t k)).remove k with
  | none => t
  | some b' => setStore t (dirIdx t (indexOf h t k)) b'

/-- Directory doubling (`global_depth_++; std::copy(dir, dir, back_inserter)`). -/
def double {β : Type} (t : HashTable β) : HashTable β :=
  { t with globalDepth := t.globalDepth + 1, dir := t.dir ++ t.dir }

/-- The split step of `Insert`'s loop body, after the conditional doubling:
two fresh buckets of depth `L+1` receive the old items partitioned by hash
bit `L`, and every slot congruent to `idx` mod `2^L` is redirected by its
own bit `L` (this is the `for (i = idx & (mask-1); i < sz; i += mask)`
loop).  The `new_bucket` (bit 1) is allocated before `old_bucket` (bit 0),
hence their store positions. -/
def split {β : Type} [Inhabited β] (h : Nat → Nat) (t : HashTable β) (idx : Nat) :
    HashTable β :=
  let b := bucketAt t idx
  let depth := b.depth
  let mask := 2 ^ depth
  let newIdx := t.store.length
  let oldIdx := t.store.length + 1
  let newB : Bucket β := Bucket.mk (b.items.filter (fun p => h p.1 / mask % 2 = 1))
    t.bucketSize (depth + 1)
  let oldB : Bucket β := Bucket.mk (b.items.filter (fun p => h p.1 / mask % 2 = 0))
    t.bucketSize (depth + 1)
  { t with
    store := t.store ++ [newB, oldB]
    numBuckets := t.numBuckets + 1
    dir := (List.range t.dir.length).map (fun i =>
      if i % mask = idx % mask then (if i / mask % 2 = 1 then newIdx else oldIdx)
      else t.dir.getD i 0) }

/-- `ExtendibleHashTable::Insert`: the retry loop (the initial shared-latch
attempt behaves exactly like the first iteration).  `fuel` bounds the number
of iterations; the C++ loop genuinely diverges when the colliding keys share
a full hash value, which the fuel models as `none`. -/
def insertLoop {β : Type} [Inhabited β] (h : Nat → Nat) (t : HashTable β) (k : Nat) (v : β) :
    Nat → Option (HashTable β)
  | 0 => none
  | fuel + 1 =>
    let idx := indexOf h t k
    let b := bucketAt t idx
    match b.insert k v with
    | some b' => some (setStore t (dirIdx t idx) b')
    | none =>
      let t1 := if b.depth = t.globalDepth then double t else t
      insertLoop h (split h t1 idx) k v fuel

/-- States reachable from a fresh table by `Insert` (terminating runs) and
`Remove` (`Find` does not change the state). -/
inductive Reachable {β : Type} [Inhabited β] (h : Nat → Nat) (bucketSize : Nat) :
    HashTable β → Prop
  | init : Reachable h bucketSize (mkTable β bucketSize)
  | remove (t : HashTable β) (k : Nat) :
      Reachable h bucketSize t → Reachable h bucketSize (removeState h t k)
  | insert (t : HashTable β) (k : Nat) (v : β) (fuel : Nat) (t' : HashTable β) :
      Reachable h bucketSize t → insertLoop h t k v fuel = some t' →
      Reachable h bucketSize t'

/-- The structural invariant of the directory:
exactly `2^G` slots; every slot's store index in range; every bucket's local
depth `L ≤ G`; and two slots alias the same bucket iff they agree on the low
`L` bits of the first slot's bucket. -/
structure Inv {β : Type} [Inhabited β] (t : HashTable β) : Prop where
  dirLen : t.dir.length = 2 ^ t.globalDepth
  dirBound : ∀ i < t.dir.length, dirIdx t i < t.store.length
  depthLe : ∀ i < t.dir.length, (bucketAt t i).depth ≤ t.globalDepth
  aliasing : ∀ i < t.dir.length, ∀ j < t.dir.length,
    (dirIdx t i = dirIdx t j ↔
      i % 2 ^ (bucketAt t i).depth = j % 2 ^ (bucketAt t i).depth)

theorem mod_pow_succ_iff (x y L : Nat) :
    x % 2 ^ (L + 1) = y % 2 ^ (L + 1) ↔
      (x % 2 ^ L = y % 2 ^ L ∧ x / 2 ^ L % 2 = y / 2 ^ L % 2) := by
  constructor
  · intro h
    rw [pow_succ, Nat.mod_mul, Nat.mod_mul] at h
    have hx : x % 2 ^ L < 2 ^ L := Nat.mod_lt _ (Nat.pow_pos (by norm_num))
    have hy : y % 2 ^ L < 2 ^ L := Nat.mod_lt _ (Nat.pow_pos (by norm_num))
    have hx2 : x / 2 ^ L % 2 < 2 := Nat.mod_lt _ (by norm_num)
    have hy2 : y / 2 ^ L % 2 < 2 := Nat.mod_lt _ (by norm_num)
    set P := 2 ^ L with hP
    set a := x / P % 2 with ha
    set b := y / P % 2 with hb
    constructor
    · interval_cases a <;> interval_cases b <;> omega
    · interval_cases a <;> interval_cases b <;> omega
  · rintro ⟨h1, h2⟩
    rw [pow_succ, Nat.mod_mul, Nat.mod_mul, h1, h2]

theorem mod_mod_of_le (x : Nat) {L G : Nat} (hLG : L ≤ G) : x % 2 ^ G % 2 ^ L = x % 2 ^ L :=
  Nat.mod_mod_of_dvd x (pow_dvd_pow 2 hLG)

theorem filter_range_eq_single (n c : Nat) (hc : c < n) :
    (List.range n).filter (fun x => decide (x = c)) = [c] := by
  induction n with
  | zero => omega
  | succ n ih =>
    rw [List.range_succ, List.filter_append]
    by_cases h : c < n
    · rw [ih h]
      have : n ≠ c := by omega
      simp [this]
    · have hcn : c = n := by omega
      subst hcn
      have hnil : (List.range c).filter (fun x => decide (x = c)) = [] := by
        rw [List.filter_eq_nil_iff]
        intro a ha
        have : a < c := List.mem_range.mp ha
        simp
        omega
      rw [hnil]
      simp

theorem countAux (n m r : Nat) (hn : 0 < n) :
    ((List.range (n * m)).filter (fun k => decide (k % n = r % n))).length = m := by
  induction m with
  | zero => simp
  | succ m ih =>
    have he : n * (m + 1) = n * m + n := by ring
    rw [he, List.range_add, List.filter_append, List.length_append, ih]
    have hcong : ∀ x ∈ List.range n,
        (decide ((n * m + x) % n = r % n)) = (decide (x = r % n)) := by
      intro x hx
      have hx' : x < n := List.mem_range.mp hx
      have h1 : (n * m + x) % n = x := by
        rw [Nat.mul_add_mod]
        exact Nat.mod_eq_of_lt hx'
      rw [decide_eq_decide]
      rw [h1]
    rw [List.filter_map, List.length_map]
    have hcomp : ((List.range n).filter (fun x => decide ((n * m + x) % n = r % n))).length = 1 := by
      rw [List.filter_congr hcong, filter_range_eq_single n (r % n) (Nat.mod_lt _ hn)]
      rfl
    rw [show ((fun k => decide (k % n = r % n)) ∘ (n * m + ·)) =
        (fun x => decide ((n * m + x) % n = r % n)) from rfl, hcomp]

theorem lookup_consE {β : Type} (f a : Nat) (b : β) (l : List (Nat × β)) :
    List.lookup f ((a, b) :: l) = if f = a then some b else List.lookup f l := by
  by_cases h : f = a
  · rw [if_pos h, List.lookup, show (f == a) = true by simpa using h]
  · rw [if_neg h, List.lookup, show (f == a) = false by simpa using h]

theorem lookup_replaceValue {β : Type} (l : List (Nat × β)) (k : Nat) (v : β)
    (hsome : (l.lookup k).isSome) : (replaceValue l k v).lookup k = some v := by
  induction l with
  | nil => simp [List.lookup] at hsome
  | cons p rest ih =>
    obtain ⟨a, c⟩ := p
    rw [lookup_consE] at hsome
    by_cases h : k = a
    · subst h
      rw [replaceValue, if_pos rfl, lookup_consE, if_pos rfl]
    · rw [if_neg h] at hsome
      rw [replaceValue, if_neg (fun hc => h hc.symm), lookup_consE, if_neg h]
      exact ih hsome

theorem lookup_append_last {β : Type} (l : List (Nat × β)) (k : Nat) (v : β)
    (hnone : l.lookup k = none) : (l ++ [(k, v)]).lookup k = some v := by
  induction l with
  | nil => simp [List.lookup]
  | cons p rest ih =>
    obtain ⟨a, c⟩ := p
    rw [lookup_consE] at hnone
    by_cases h : k = a
    · rw [if_pos h] at hnone; exact absurd hnone (by simp)
    · rw [if_neg h] at hnone
      rw [List.cons_append, lookup_consE, if_neg h]
      exact ih hnone

/-- `Bucket::Insert` success: the key maps to the new value afterwards, and
the bucket's local depth is unchanged. -/
theorem Bucket.insert_spec {β : Type} {b b' : Bucket β} {k : Nat} {v : β}
    (h : b.insert k v = some b') :
    b'.find k = some v ∧ b'.depth = b.depth ∧ b'.sizeCap = b.sizeCap := by
  unfold Bucket.insert at h
  split at h
  · obtain rfl := Option.some_injective _ h
    exact ⟨lookup_replaceValue _ _ _ (by assumption), rfl, rfl⟩
  · split at h
    · exact absurd h (by simp)
    · obtain rfl := Option.some_injective _ h
      refine ⟨lookup_append_last _ _ _ ?_, rfl, rfl⟩
      rename_i hns _
      exact Option.not_isSome_iff_eq_none.mp hns

theorem Bucket.remove_depth {β : Type} {b b' : Bucket β} {k : Nat}
    (h : b.remove k = some b') : b'.depth = b.depth := by
  unfold Bucket.remove at h
  split at h
  · obtain rfl := Option.some_injective _ h; rfl
  · exact absurd h (by simp)

section InvPreservation

variable {β : Type} [Inhabited β]

theorem getD_set_eq {α : Type} (l : List α) (j : Nat) (b d : α) (h : j < l.length) :
    (l.set j b).getD j d = b := by
  simp [List.getD_eq_getElem?_getD, List.getElem?_set_eq_of_lt b h]

theorem getD_set_ne {α : Type} (l : List α) (i j : Nat) (b d : α) (h : j ≠ i) :
    (l.set j b).getD i d = l.getD i d := by
  simp [List.getD_eq_getElem?_getD, List.getElem?_set_ne h]

theorem bucketAt_setStore (t : HashTable β) (j : Nat) (b : Bucket β) (i : Nat)
    (hj : j < t.store.length) :
    bucketAt (setStore t j b) i = if dirIdx t i = j then b else bucketAt t i := by
  show (t.store.set j b).getD (t.dir.getD i 0) (junkBucket β) = _
  by_cases h : dirIdx t i = j
  · rw [if_pos h, show t.dir.getD i 0 = j from h, getD_set_eq _ _ _ _ hj]
  · rw [if_neg h, getD_set_ne t.store (t.dir.getD i 0) j b (junkBucket β) (fun hc => h hc.symm)]
    rfl

theorem Inv.mkTable (bucketSize : Nat) : Inv (EHT.mkTable β bucketSize) := by
  refine ⟨rfl, ?_, ?_, ?_⟩
  · intro i hi
    have h0 : i = 0 := Nat.lt_one_iff.mp (by simpa [EHT.mkTable] using hi)
    subst h0
    simp [EHT.mkTable, dirIdx]
  · intro i hi
    have h0 : i = 0 := Nat.lt_one_iff.mp (by simpa [EHT.mkTable] using hi)
    subst h0
    simp [EHT.mkTable, bucketAt, dirIdx, junkBucket]
  · intro i hi j hj
    have h0 : i = 0 := Nat.lt_one_iff.mp (by simpa [EHT.mkTable] using hi)
    have h1 : j = 0 := Nat.lt_one_iff.mp (by simpa [EHT.mkTable] using hj)
    subst h0; subst h1
    simp

/-- Replacing the bucket referenced through directory slot `i0` by one of
equal depth preserves the invariant. -/
theorem Inv.setStoreAt {t : HashTable β} (hInv : Inv t) (i0 : Nat) (hi0 : i0 < t.dir.length)
    (b : Bucket β) (hd : b.depth = (bucketAt t i0).depth) :
    Inv (setStore t (dirIdx t i0) b) := by
  have hb0 : dirIdx t i0 < t.store.length := hInv.dirBound i0 hi0
  have hba : ∀ i, bucketAt (setStore t (dirIdx t i0) b) i =
      if dirIdx t i = dirIdx t i0 then b else bucketAt t i :=
    fun i => bucketAt_setStore t (dirIdx t i0) b i hb0
  have hdepth : ∀ i, (bucketAt (setStore t (dirIdx t i0) b) i).depth = (bucketAt t i).depth := by
    intro i
    rw [hba i]
    split
    · rename_i heq
      rw [hd]
      unfold bucketAt
      rw [show dirIdx t i0 = dirIdx t i from heq.symm]
    · rfl
  refine ⟨hInv.dirLen, ?_, ?_, ?_⟩
  · intro i hi
    have := hInv.dirBound i hi
    simpa [setStore, dirIdx] using this
  · intro i hi
    rw [hdepth i]
    exact hInv.depthLe i hi
  · intro i hi j hj
    rw [hdepth i]
    exact hInv.aliasing i hi j hj

theorem indexOf_lt_dirLen {t : HashTable β} (hInv : Inv t) (h : Nat → Nat) (k : Nat) :
    indexOf h t k < t.dir.length := by
  rw [hInv.dirLen]
  exact Nat.mod_lt _ (Nat.pow_pos (by norm_num))

theorem Inv.removeState {t : HashTable β} (hInv : Inv t) (h : Nat → Nat) (k : Nat) :
    Inv (EHT.removeState h t k) := by
  unfold EHT.removeState
  cases hrem : (bucketAt t (indexOf h t k)).remove k with
  | none => exact hInv
  | some b' =>
    exact hInv.setStoreAt (indexOf h t k) (indexOf_lt_dirLen hInv h k) b'
      (Bucket.remove_depth hrem)

theorem dirIdx_double (t : HashTable β) (i : Nat) (hlen : 0 < t.dir.length)
    (hi : i < 2 * t.dir.length) :
    dirIdx (double t) i = dirIdx t (i % t.dir.length) := by
  show (t.dir ++ t.dir).getD i 0 = t.dir.getD (i % t.dir.length) 0
  by_cases h : i < t.dir.length
  · rw [List.getD_eq_getElem?_getD, List.getElem?_append_left h,
      ← List.getD_eq_getElem?_getD, Nat.mod_eq_of_lt h]
  · push_neg at h
    rw [List.getD_eq_getElem?_getD, List.getElem?_append_right h,
      ← List.getD_eq_getElem?_getD, Nat.mod_eq_sub_mod h, Nat.mod_eq_of_lt (by omega)]

theorem bucketAt_double (t : HashTable β) (i : Nat) (hlen : 0 < t.dir.length)
    (hi : i < 2 * t.dir.length) :
    bucketAt (double t) i = bucketAt t (i % t.dir.length) := by
  unfold bucketAt
  rw [dirIdx_double t i hlen hi]
  rfl

theorem Inv.double {t : HashTable β} (hInv : Inv t) : Inv (EHT.double t) := by
  have hlen : 0 < t.dir.length := by
    rw [hInv.dirLen]; exact Nat.pow_pos (by norm_num)
  have hlen2 : (EHT.double t).dir.length = 2 * t.dir.length := by
    simp [EHT.double, Nat.two_mul]
  refine ⟨?_, ?_, ?_, ?_⟩
  · rw [hlen2, hInv.dirLen]
    show 2 * 2 ^ t.globalDepth = 2 ^ (t.globalDepth + 1)
    rw [pow_succ]; ring
  · intro i hi
    rw [hlen2] at hi
    rw [dirIdx_double t i hlen hi]
    show dirIdx t (i % t.dir.length) < t.store.length
    exact hInv.dirBound _ (Nat.mod_lt _ hlen)
  · intro i hi
    rw [hlen2] at hi
    rw [bucketAt_double t i hlen hi]
    exact Nat.le_succ_of_le (hInv.depthLe _ (Nat.mod_lt _ hlen))
  · intro i hi j hj
    rw [hlen2] at hi hj
    rw [dirIdx_double t i hlen hi, dirIdx_double t j hlen hj, bucketAt_double t i hlen hi]
    set L := (bucketAt t (i % t.dir.length)).depth with hLdef
    have hL : L ≤ t.globalDepth := hInv.depthLe _ (Nat.mod_lt _ hlen)
    have hmi : i % t.dir.length % 2 ^ L = i % 2 ^ L := by
      conv_lhs => rw [hInv.dirLen]
      exact mod_mod_of_le i hL
    have hmj : j % t.dir.length % 2 ^ L = j % 2 ^ L := by
      conv_lhs => rw [hInv.dirLen]
      exact mod_mod_of_le j hL
    rw [hInv.aliasing _ (Nat.mod_lt _ hlen) _ (Nat.mod_lt _ hlen), ← hLdef, hmi, hmj]

theorem getD_map_range {α : Type} (n : Nat) (f : Nat → α) (i : Nat) (d : α) (h : i < n) :
    ((List.range n).map f).getD i d = f i := by
  simp [List.getD_eq_getElem?_getD, List.getElem?_map, List.getElem?_range h]

/-- The bit-1 bucket (`new_bucket`) created by a split. -/
def splitNewB (h : Nat → Nat) (t : HashTable β) (idx : Nat) : Bucket β :=
  Bucket.mk ((bucketAt t idx).items.filter
      (fun p => h p.1 / 2 ^ (bucketAt t idx).depth % 2 = 1))
    t.bucketSize ((bucketAt t idx).depth + 1)

/-- The bit-0 bucket (`old_bucket`) created by a split. -/
def splitOldB (h : Nat → Nat) (t : HashTable β) (idx : Nat) : Bucket β :=
  Bucket.mk ((bucketAt t idx).items.filter
      (fun p => h p.1 / 2 ^ (bucketAt t idx).depth % 2 = 0))
    t.bucketSize ((bucketAt t idx).depth + 1)

theorem split_eq (h : Nat → Nat) (t : HashTable β) (idx : Nat) :
    split h t idx =
      { t with
        store := t.store ++ [splitNewB h t idx, splitOldB h t idx]
        numBuckets := t.numBuckets + 1
        dir := (List.range t.dir.length).map (fun i =>
          if i % 2 ^ (bucketAt t idx).depth = idx % 2 ^ (bucketAt t idx).depth then
            (if i / 2 ^ (bucketAt t idx).depth % 2 = 1 then t.store.length
             else t.store.length + 1)
          else t.dir.getD i 0) } := rfl

theorem dirIdx_split (h : Nat → Nat) (t : HashTable β) (idx i : Nat) (hi : i < t.dir.length) :
    dirIdx (split h t idx) i =
      if i % 2 ^ (bucketAt t idx).depth = idx % 2 ^ (bucketAt t idx).depth then
        (if i / 2 ^ (bucketAt t idx).depth % 2 = 1 then t.store.length
         else t.store.length + 1)
      else dirIdx t i := by
  rw [show dirIdx (split h t idx) i = ((List.range t.dir.length).map (fun i =>
    if i % 2 ^ (bucketAt t idx).depth = idx % 2 ^ (bucketAt t idx).depth then
      (if i / 2 ^ (bucketAt t idx).depth % 2 = 1 then t.store.length
       else t.store.length + 1)
    else t.dir.getD i 0)).getD i 0 from rfl]
  rw [getD_map_range _ _ _ _ hi]
  rfl

theorem bucketAt_split (h : Nat → Nat) (t : HashTable β) (idx i : Nat)
    (hi : i < t.dir.length) (hbound : dirIdx t i < t.store.length) :
    bucketAt (split h t idx) i =
      if i % 2 ^ (bucketAt t idx).depth = idx % 2 ^ (bucketAt t idx).depth then
        (if i / 2 ^ (bucketAt t idx).depth % 2 = 1 then splitNewB h t idx
         else splitOldB h t idx)
      else bucketAt t i := by
  have hstore : (split h t idx).store = t.store ++ [splitNewB h t idx, splitOldB h t idx] := rfl
  show (split h t idx).store.getD (dirIdx (split h t idx) i) (junkBucket β) = _
  rw [dirIdx_split h t idx i hi, hstore]
  by_cases hP : i % 2 ^ (bucketAt t idx).depth = idx % 2 ^ (bucketAt t idx).depth
  · rw [if_pos hP, if_pos hP]
    by_cases hb : i / 2 ^ (bucketAt t idx).depth % 2 = 1
    · rw [if_pos hb, if_pos hb, List.getD_eq_getElem?_getD,
        List.getElem?_append_right (Nat.le_refl _)]
      simp
    · rw [if_neg hb, if_neg hb, List.getD_eq_getElem?_getD,
        List.getElem?_append_right (Nat.le_succ _)]
      simp
  · rw [if_neg hP, if_neg hP, List.getD_eq_getElem?_getD, List.getElem?_append_left hbound,
      ← List.getD_eq_getElem?_getD]
    rfl

theorem Inv.split {t : HashTable β} (hInv : Inv t) (h : Nat → Nat) (idx : Nat)
    (hidx : idx < t.dir.length)
    (hdep : (bucketAt t idx).depth < t.globalDepth) :
    Inv (EHT.split h t idx) := by
  have hdir := fun i (hi : i < t.dir.length) => dirIdx_split h t idx i hi
  have hbuck := fun i (hi : i < t.dir.length) =>
    bucketAt_split h t idx i hi (hInv.dirBound i hi)
  have hsl : (EHT.split h t idx).store.length = t.store.length + 2 := by
    rw [split_eq]; simp
  have hdl : (EHT.split h t idx).dir.length = t.dir.length := by
    rw [split_eq]; simp
  have hgd : (EHT.split h t idx).globalDepth = t.globalDepth := rfl
  set L := (bucketAt t idx).depth with hLdef
  have hT : ∀ j, j < t.dir.length → (dirIdx t j = dirIdx t idx ↔ j % 2 ^ L = idx % 2 ^ L) := by
    intro j hj
    constructor
    · intro e; exact ((hInv.aliasing idx hidx j hj).mp e.symm).symm
    · intro e; exact ((hInv.aliasing idx hidx j hj).mpr e.symm).symm
  have hdepthNew : ∀ c : Bool,
      ((if c = true then splitNewB h t idx else splitOldB h t idx) : Bucket β).depth = L + 1 := by
    intro c; cases c <;> rfl
  refine ⟨?_, ?_, ?_, ?_⟩
  · rw [hdl, hgd]; exact hInv.dirLen
  · intro i hi
    rw [hdl] at hi
    rw [hdir i hi, hsl]
    split
    · split
      · omega
      · omega
    · have := hInv.dirBound i hi
      omega
  · intro i hi
    rw [hdl] at hi
    rw [hgd, hbuck i hi]
    by_cases hP : i % 2 ^ L = idx % 2 ^ L
    · rw [if_pos hP]
      have : ((if i / 2 ^ L % 2 = 1 then splitNewB h t idx else splitOldB h t idx) :
          Bucket β).depth = L + 1 := by
        split <;> rfl
      rw [this]
      omega
    · rw [if_neg hP]
      exact hInv.depthLe i hi
  · intro i hi j hj
    rw [hdl] at hi hj
    rw [hdir i hi, hdir j hj, hbuck i hi]
    by_cases hPi : i % 2 ^ L = idx % 2 ^ L <;> by_cases hPj : j % 2 ^ L = idx % 2 ^ L
    · -- both slots are redirected: same bucket iff same bit L
      rw [if_pos hPi, if_pos hPj, if_pos hPi]
      have hdepth : ((if i / 2 ^ L % 2 = 1 then splitNewB h t idx else splitOldB h t idx) :
          Bucket β).depth = L + 1 := by
        split <;> rfl
      rw [hdepth, mod_pow_succ_iff]
      have hmods : i % 2 ^ L = j % 2 ^ L := hPi.trans hPj.symm
      have hbi : i / 2 ^ L % 2 < 2 := Nat.mod_lt _ (by norm_num)
      have hbj : j / 2 ^ L % 2 < 2 := Nat.mod_lt _ (by norm_num)
      constructor
      · intro e
        refine ⟨hmods, ?_⟩
        by_cases h1 : i / 2 ^ L % 2 = 1 <;> by_cases h2 : j / 2 ^ L % 2 = 1
        · rw [h1, h2]
        · rw [if_pos h1, if_neg h2] at e; omega
        · rw [if_neg h1, if_pos h2] at e; omega
        · omega
      · rintro ⟨-, e2⟩
        rw [e2]
    · -- i redirected, j not: never equal, and low L+1 bits must differ
      rw [if_pos hPi, if_neg hPj, if_pos hPi]
      have hdepth : ((if i / 2 ^ L % 2 = 1 then splitNewB h t idx else splitOldB h t idx) :
          Bucket β).depth = L + 1 := by
        split <;> rfl
      rw [hdepth]
      have hlhs : ¬ ((if i / 2 ^ L % 2 = 1 then t.store.length else t.store.length + 1)
          = dirIdx t j) := by
        have := hInv.dirBound j hj
        split <;> omega
      refine iff_of_false hlhs ?_
      intro e
      have := (mod_pow_succ_iff i j L).mp e
      exact hPj (this.1.symm.trans hPi)
    · -- j redirected, i not
      rw [if_neg hPi, if_pos hPj, if_neg hPi]
      have hlhs : ¬ (dirIdx t i =
          (if j / 2 ^ L % 2 = 1 then t.store.length else t.store.length + 1)) := by
        have := hInv.dirBound i hi
        split <;> omega
      refine iff_of_false hlhs ?_
      intro e
      have e1 : dirIdx t i = dirIdx t j := (hInv.aliasing i hi j hj).mpr e
      have e2 : dirIdx t j = dirIdx t idx := (hT j hj).mpr hPj
      exact hPi ((hT i hi).mp (e1.trans e2))
    · -- both untouched
      rw [if_neg hPi, if_neg hPj, if_neg hPi]
      exact hInv.aliasing i hi j hj

theorem insertLoop_spec (h : Nat → Nat) :
    ∀ (fuel : Nat) (t : HashTable β) (k : Nat) (v : β) (t' : HashTable β),
      Inv t → insertLoop h t k v fuel = some t' →
      Inv t' ∧ find h t' k = some v ∧ t.globalDepth ≤ t'.globalDepth := by
  intro fuel
  induction fuel with
  | zero =>
    intro t k v t' hInv hsome
    simp [insertLoop] at hsome
  | succ fuel ih =>
    intro t k v t' hInv hsome
    have hidx : indexOf h t k < t.dir.length := indexOf_lt_dirLen hInv h k
    cases hins : (bucketAt t (indexOf h t k)).insert k v with
    | some b' =>
      simp only [insertLoop, hins] at hsome
      obtain rfl := Option.some_injective _ hsome
      obtain ⟨hfind, hdepth, -⟩ := Bucket.insert_spec hins
      refine ⟨hInv.setStoreAt _ hidx b' hdepth, ?_, Nat.le_refl _⟩
      show (bucketAt (setStore t (dirIdx t (indexOf h t k)) b')
        (indexOf h (setStore t (dirIdx t (indexOf h t k)) b') k)).find k = some v
      have hsame : indexOf h (setStore t (dirIdx t (indexOf h t k)) b') k = indexOf h t k := rfl
      rw [hsame, bucketAt_setStore t _ b' _ (hInv.dirBound _ hidx), if_pos rfl]
      exact hfind
    | none =>
      simp only [insertLoop, hins] at hsome
      by_cases hd : (bucketAt t (indexOf h t k)).depth = t.globalDepth
      · rw [if_pos hd] at hsome
        have hlen : 0 < t.dir.length := by
          rw [hInv.dirLen]; exact Nat.pow_pos (by norm_num)
        have hInv2 : Inv (EHT.double t) := hInv.double
        have hidx2 : indexOf h t k < (EHT.double t).dir.length := by
          have : (EHT.double t).dir.length = 2 * t.dir.length := by
            simp [EHT.double, Nat.two_mul]
          omega
        have hb2 : bucketAt (EHT.double t) (indexOf h t k) = bucketAt t (indexOf h t k) := by
          rw [bucketAt_double t _ hlen (by omega), Nat.mod_eq_of_lt hidx]
        have hdep2 : (bucketAt (EHT.double t) (indexOf h t k)).depth <
            (EHT.double t).globalDepth := by
          rw [hb2, hd]
          exact Nat.lt_succ_self _
        obtain ⟨h1, h2, h3⟩ := ih _ k v t' (hInv2.split h _ hidx2 hdep2) hsome
        refine ⟨h1, h2, ?_⟩
        have : (EHT.split h (EHT.double t) (indexOf h t k)).globalDepth =
            t.globalDepth + 1 := rfl
        omega
      · rw [if_neg hd] at hsome
        have hdep2 : (bucketAt t (indexOf h t k)).depth < t.globalDepth :=
          Nat.lt_of_le_of_ne (hInv.depthLe _ hidx) hd
        obtain ⟨h1, h2, h3⟩ := ih _ k v t' (hInv.split h _ hidx hdep2) hsome
        refine ⟨h1, h2, ?_⟩
        have : (EHT.split h t (indexOf h t k)).globalDepth = t.globalDepth := rfl
        omega

theorem Reachable.inv {h : Nat → Nat} {bucketSize : Nat} {t : HashTable β}
    (hr : Reachable h bucketSize t) : Inv t := by
  induction hr with
  | init => exact Inv.mkTable bucketSize
  | remove t k _ ih => exact ih.removeState h k
  | insert t k v fuel t' _ hsome ih => exact (insertLoop_spec h fuel t k v t' ih hsome).1

/-- C9: in every reachable table state the directory has exactly `2^G`
slots, every bucket's local depth is at most `G`, slot `j` aliases slot
`i`'s bucket exactly when they agree on its low `L` bits — hence each bucket
is referenced by exactly `2^(G-L)` slots — and a terminating `Insert`
(which doubles the directory, possibly repeatedly, whenever the full
bucket's local depth equals the global depth) ends with the key present and
the global depth never decreased. -/
theorem eht_directory_invariants (h : Nat → Nat) (bucketSize : Nat)
    (t : HashTable β) (hr : Reachable h bucketSize t) :
    t.dir.length = 2 ^ t.globalDepth ∧
    (∀ i < t.dir.length, (bucketAt t i).depth ≤ t.globalDepth) ∧
    (∀ i < t.dir.length,
      ((List.range t.dir.length).filter (fun j => decide (dirIdx t j = dirIdx t i))).length =
        2 ^ (t.globalDepth - (bucketAt t i).depth)) ∧
    (∀ i < t.dir.length, ∀ j < t.dir.length,
      (dirIdx t j = dirIdx t i ↔
        j % 2 ^ (bucketAt t i).depth = i % 2 ^ (bucketAt t i).depth)) ∧
    (∀ (k : Nat) (v : β) (fuel : Nat) (t' : HashTable β),
      insertLoop h t k v fuel = some t' →
      find h t' k = some v ∧ t.globalDepth ≤ t'.globalDepth) := by
  have hInv : Inv t := hr.inv
  have haliassym : ∀ i, i < t.dir.length → ∀ j, j < t.dir.length →
      (dirIdx t j = dirIdx t i ↔
        j % 2 ^ (bucketAt t i).depth = i % 2 ^ (bucketAt t i).depth) := by
    intro i hi j hj
    constructor
    · intro e; exact ((hInv.aliasing i hi j hj).mp e.symm).symm
    · intro e; exact ((hInv.aliasing i hi j hj).mpr e.symm).symm
  refine ⟨hInv.dirLen, hInv.depthLe, ?_, haliassym, ?_⟩
  · intro i hi
    have hLe : (bucketAt t i).depth ≤ t.globalDepth := hInv.depthLe i hi
    have hcong : ∀ j ∈ List.range t.dir.length,
        (decide (dirIdx t j = dirIdx t i)) =
        (decide (j % 2 ^ (bucketAt t i).depth = i % 2 ^ (bucketAt t i).depth)) := by
      intro j hj
      rw [decide_eq_decide]
      exact haliassym i hi j (List.mem_range.mp hj)
    rw [List.filter_congr hcong]
    have hlen : t.dir.length =
        2 ^ (bucketAt t i).depth * 2 ^ (t.globalDepth - (bucketAt t i).depth) := by
      rw [hInv.dirLen, ← pow_add, Nat.add_sub_cancel' hLe]
    conv_lhs => rw [hlen]
    exact countAux _ _ i (Nat.pow_pos (by norm_num))
  · intro k v fuel t' hsome
    exact (insertLoop_spec h fuel t k v t' hInv hsome).2

/-- The table reached from `mkTable Nat 1` by inserting key 0 (hash 0) then
key 1 (hash 1): the second insert doubles the directory and splits the only
bucket. -/
def ehtW : HashTable Nat :=
  { globalDepth := 1, bucketSize := 1, numBuckets := 2
    store := [Bucket.mk [(0, 10)] 1 0, Bucket.mk [(1, 20)] 1 1, Bucket.mk [(0, 10)] 1 1]
    dir := [2, 1] }

/-- The intermediate table after inserting only key 0. -/
def ehtW1 : HashTable Nat :=
  { globalDepth := 0, bucketSize := 1, numBuckets := 1
    store := [Bucket.mk [(0, 10)] 1 0], dir := [0] }

/-- C9 witness: the reachable two-bucket table `ehtW` satisfies all the
directory invariants. -/
theorem eht_directory_invariants_witness :
    Reachable (β := Nat) id 1 ehtW ∧
    (ehtW.dir.length = 2 ^ ehtW.globalDepth ∧
      (∀ i < ehtW.dir.length, (bucketAt ehtW i).depth ≤ ehtW.globalDepth) ∧
      (∀ i < ehtW.dir.length,
        ((List.range ehtW.dir.length).filter
          (fun j => decide (dirIdx ehtW j = dirIdx ehtW i))).length =
          2 ^ (ehtW.globalDepth - (bucketAt ehtW i).depth)) ∧
      (∀ i < ehtW.dir.length, ∀ j < ehtW.dir.length,
        (dirIdx ehtW j = dirIdx ehtW i ↔
          j % 2 ^ (bucketAt ehtW i).depth = i % 2 ^ (bucketAt ehtW i).depth)) ∧
      (∀ (k : Nat) (v : Nat) (fuel : Nat) (t' : HashTable Nat),
        insertLoop id ehtW k v fuel = some t' →
        find id t' k = some v ∧ ehtW.globalDepth ≤ t'.globalDepth)) := by
  have h1 : insertLoop (β := Nat) id (mkTable Nat 1) 0 10 5 = some ehtW1 := by decide
  have h2 : insertLoop id ehtW1 1 20 5 = some ehtW := by decide
  have hr : Reachable (β := Nat) id 1 ehtW :=
    Reachable.insert ehtW1 1 20 5 ehtW (Reachable.insert _ 0 10 5 ehtW1 Reachable.init h1) h2
  exact ⟨hr, eht_directory_invariants id 1 ehtW hr⟩

end InvPreservation

end EHT

/-! ## Buffer pool manager (`src/buffer/buffer_pool_manager_instance.cpp`)

The frame array `pages_` is a list indexed by frame id; the page table is
the extendible hash table from page id to frame id; the replacer is the
LRU-K replacer.  `DiskManager::WritePage` calls are collected in an output
trace of `(page_id, data)` events; `ReadPage` reads from a `disk` function.
The page-table `Insert` carries fuel (see `EHT.insertLoop`); `none` models
the (unreachable in practice) divergence of that call, before which no
`WritePage` has happened on the `NewPgImp` path and exactly the flush has
happened on the `FetchPgImp` path. -/

namespace BP

structure BPPage where
  pageId : Int
  pinCount : Int
  isDirty : Bool
  data : Nat
deriving Repr, DecidableEq

def junkPage : BPPage := { pageId := -1, pinCount := 0, isDirty := false, data := 0 }

/-- Modelled from the spec: `InitPage` is declared only in the buffer-pool
header, which is not among the sources.  The spec's victim path reads
"flush if dirty, zero the frame", so `InitPage` resets the frame's metadata
and zeroes its contents; it performs no disk I/O (the flush is explicit in
`NewPgImp`/`FetchPgImp`). -/
def InitPage (p : BPPage) : BPPage :=
  { pageId := -1, pinCount := 0, isDirty := false, data := 0 }

structure BPState where
  pages : List BPPage
  pageTable : EHT.HashTable Nat
  replacer : LRUK.Replacer
  freeList : List Nat
  nextPageId : Int
deriving Repr, DecidableEq

/-- A `WritePage(page_id, data)` event. -/
def WriteEvent := Int × Nat

/-- `BufferPoolManagerInstance::NewPgImp`.  Returns
`some (allocated page id or none, new state, WritePage events)`; the outer
`none` is page-table-insert fuel exhaustion. -/
def NewPgImp (h : Nat → Nat) (fuel : Nat) (s : BPState) :
    Option (Option Int × BPState × List (Int × Nat)) :=
  match s.freeList.getLast? with
  | some frameId =>
    let newPid := s.nextPageId
    let rep := LRUK.setEvictable (LRUK.recordAccess s.replacer frameId) frameId false
    match EHT.insertLoop h s.pageTable newPid.toNat frameId fuel with
    | none => none
    | some pt =>
      let p0 := s.pages.getD frameId junkPage
      let p1 := { InitPage p0 with pageId := newPid, pinCount := 1 }
      some (some newPid,
        { pages := s.pages.set frameId p1, pageTable := pt, replacer := rep,
          freeList := s.freeList.dropLast, nextPageId := s.nextPageId + 1 }, [])
  | none =>
    match LRUK.evict s.replacer with
    | none => some (none, s, [])
    | some (frameId, rep0) =>
      let p0 := s.pages.getD frameId junkPage
      let oldPid := p0.pageId
      let newPid := s.nextPageId
      let rep := LRUK.setEvictable (LRUK.recordAccess rep0 frameId) frameId false
      let pt1 := EHT.removeState h s.pageTable oldPid.toNat
      match EHT.insertLoop h pt1 newPid.toNat frameId fuel with
      | none => none
      | some pt2 =>
        let writes := if p0.isDirty then [(oldPid, p0.data)] else []
        let p1 := { InitPage p0 with pageId := newPid, pinCount := 1 }
        some (some newPid,
          { pages := s.pages.set frameId p1, pageTable := pt2, replacer := rep,
            freeList := s.freeList, nextPageId := s.nextPageId + 1 }, writes)

/-- `BufferPoolManagerInstance::FetchPgImp`. -/
def FetchPgImp (h : Nat → Nat) (disk : Int → Nat) (fuel : Nat) (s : BPState) (pid : Int) :
    Option (Option Int × BPState × List (Int × Nat)) :=
  if pid = -1 then some (none, s, [])
  else
    match EHT.find h s.pageTable pid.toNat with
    | some frameId =>
      let rep := LRUK.setEvictable (LRUK.recordAccess s.replacer frameId) frameId false
      let p0 := s.pages.getD frameId junkPage
      some (some pid,
        { s with pages := s.pages.set frameId ({ p0 with pinCount := p0.pinCount + 1 }),
                 replacer := rep }, [])
    | none =>
      match s.freeList.getLast? with
      | some frameId =>
        let rep := LRUK.setEvictable (LRUK.recordAccess s.replacer frameId) frameId false
        match EHT.insertLoop h s.pageTable pid.toNat frameId fuel with
        | none => none
        | some pt =>
          let p0 := s.pages.getD frameId junkPage
          let p1a := InitPage p0
          let p1 := { p1a with pageId := pid, data := disk pid, pinCount := p1a.pinCount + 1 }
          some (some pid,
            { pages := s.pages.set frameId p1, pageTable := pt, replacer := rep,
              freeList := s.freeList.dropLast, nextPageId := s.nextPageId }, [])
      | none =>
        match LRUK.evict s.replacer with
        | none => some (none, s, [])
        | some (frameId, rep0) =>
          let rep := LRUK.setEvictable (LRUK.recordAccess rep0 frameId) frameId false
          let p0 := s.pages.getD frameId junkPage
          let oldPid := p0.pageId
          let pt1 := EHT.removeState h s.pageTable oldPid.toNat
          match EHT.insertLoop h pt1 pid.toNat frameId fuel with
          | none => none
          | some pt2 =>
            let writes := if p0.isDirty then [(oldPid, p0.data)] else []
            let p1 := { InitPage p0 with pageId := pid, data := disk pid, pinCount := 1 }
            some (some pid,
              { pages := s.pages.set frameId p1, pageTable := pt2, replacer := rep,
                freeList := s.freeList, nextPageId := s.nextPageId }, writes)

/-- `BufferPoolManagerInstance::DeletePgImp`.  Returns
`(bool result, new state, WritePage events)`.  `DeallocatePage` is a
no-op for the allocation counter. -/
def DeletePgImp (h : Nat → Nat) (s : BPState) (pid : Int) :
    Bool × BPState × List (Int × Nat) :=
  if pid = -1 then (true, s, [])
  else
    match EHT.find h s.pageTable pid.toNat with
    | none => (true, s, [])
    | some frameId =>
      let p0 := s.pages.getD frameId junkPage
      if 0 < p0.pinCount then (false, s, [])
      else
        (true,
          { pages := s.pages.set frameId (InitPage p0),
            pageTable := EHT.removeState h s.pageTable pid.toNat,
            replacer := LRUK.removeFrame s.replacer frameId,
            freeList := s.freeList ++ [frameId],
            nextPageId := s.nextPageId }, [])

/-- C2 (amended part, proved): when `NewPgImp` or `FetchPgImp` takes the
eviction path (free list empty, replacer yields victim frame `f`), a dirty
victim page is written to disk — the `WritePage` trace carries exactly the
victim's old page id and pre-reset contents — before the frame is
reinitialized and reused; and `DeletePgImp` never emits any `WritePage`. -/
theorem bp_dirty_victim_flushed (h : Nat → Nat) (disk : Int → Nat) (fuel : Nat) (s : BPState)
    (f : Nat) (rep0 : LRUK.Replacer)
    (hfree : s.freeList.getLast? = none)
    (hevict : LRUK.evict s.replacer = some (f, rep0))
    (hf : f < s.pages.length) :
    (∀ ret s' w, NewPgImp h fuel s = some (ret, s', w) →
      w = (if (s.pages.getD f junkPage).isDirty then
            [((s.pages.getD f junkPage).pageId, (s.pages.getD f junkPage).data)] else []) ∧
      s'.pages.getD f junkPage =
        { pageId := s.nextPageId, pinCount := 1, isDirty := false, data := 0 }) ∧
    (∀ pid ret s' w, ¬ pid = -1 → EHT.find h s.pageTable pid.toNat = none →
      FetchPgImp h disk fuel s pid = some (ret, s', w) →
      w = (if (s.pages.getD f junkPage).isDirty then
            [((s.pages.getD f junkPage).pageId, (s.pages.getD f junkPage).data)] else []) ∧
      s'.pages.getD f junkPage =
        { pageId := pid, pinCount := 1, isDirty := false, data := disk pid }) ∧
    (∀ pid, (DeletePgImp h s pid).2.2 = []) := by
  refine ⟨?_, ?_, ?_⟩
  · intro ret s' w hsome
    simp only [NewPgImp, hfree, hevict] at hsome
    cases hins : EHT.insertLoop h
        (EHT.removeState h s.pageTable (s.pages.getD f junkPage).pageId.toNat)
        s.nextPageId.toNat f fuel with
    | none => rw [hins] at hsome; simp at hsome
    | some pt2 =>
      rw [hins] at hsome
      simp only [Option.some.injEq, Prod.mk.injEq] at hsome
      obtain ⟨rfl, rfl, rfl⟩ := hsome
      refine ⟨rfl, ?_⟩
      show ((s.pages.set f _).getD f junkPage) = _
      rw [EHT.getD_set_eq s.pages f _ junkPage hf]
      rfl
  · intro pid ret s' w hpid hfind hsome
    simp only [FetchPgImp, if_neg hpid, hfind, hfree, hevict] at hsome
    cases hins : EHT.insertLoop h
        (EHT.removeState h s.pageTable (s.pages.getD f junkPage).pageId.toNat)
        pid.toNat f fuel with
    | none => rw [hins] at hsome; simp at hsome
    | some pt2 =>
      rw [hins] at hsome
      simp only [Option.some.injEq, Prod.mk.injEq] at hsome
      obtain ⟨rfl, rfl, rfl⟩ := hsome
      refine ⟨rfl, ?_⟩
      show ((s.pages.set f _).getD f junkPage) = _
      rw [EHT.getD_set_eq s.pages f _ junkPage hf]
      rfl
  · intro pid
    unfold DeletePgImp
    split
    · rfl
    · cases EHT.find h s.pageTable pid.toNat with
      | none => rfl
      | some frameId =>
        dsimp only
        split
        · rfl
        · rfl

/-- A buffer pool state with one frame holding the unpinned dirty page 5
(contents 42). -/
def bpW : BPState :=
  { pages := [{ pageId := 5, pinCount := 0, isDirty := true, data := 42 }]
    pageTable := { globalDepth := 0, bucketSize := 4, numBuckets := 1
                   store := [EHT.Bucket.mk [(5, 0)] 4 0], dir := [0] }
    replacer := { frames := [(0, { evictable := true, status := 1, cnt := 1, queueSize := 2
                                   history := [1] })]
                  k := 2, currSize := 1, currentTimestamp := 1 }
    freeList := []
    nextPageId := 6 }

/-- The replacer state after evicting frame 0 from `bpW`. -/
def bpWrep0 : LRUK.Replacer :=
  { frames := [(0, { evictable := true, status := 0, cnt := 0, queueSize := 2, history := [] })]
    k := 2, currSize := 0, currentTimestamp := 1 }

/-- The buffer pool state after `NewPgImp` on `bpW`. -/
def bpWnew : BPState :=
  { pages := [{ pageId := 6, pinCount := 1, isDirty := false, data := 0 }]
    pageTable := { globalDepth := 0, bucketSize := 4, numBuckets := 1
                   store := [EHT.Bucket.mk [(6, 0)] 4 0], dir := [0] }
    replacer := { frames := [(0, { evictable := false, status := 1, cnt := 1, queueSize := 2
                                   history := [2] })]
                  k := 2, currSize := 0, currentTimestamp := 2 }
    freeList := []
    nextPageId := 7 }

/-- C2 witness: on `bpW` (dirty page 5, contents 42, in the only frame),
`NewPgImp` evicts frame 0 and flushes `(5, 42)` before reusing it. -/
theorem bp_dirty_victim_flushed_witness :
    (bpW.freeList.getLast? = none ∧ LRUK.evict bpW.replacer = some (0, bpWrep0) ∧
      (0 : Nat) < bpW.pages.length ∧
      NewPgImp id 5 bpW = some (some 6, bpWnew, [(5, 42)])) ∧
    ([((5 : Int), (42 : Nat))] =
        (if (bpW.pages.getD 0 junkPage).isDirty then
          [((bpW.pages.getD 0 junkPage).pageId, (bpW.pages.getD 0 junkPage).data)] else []) ∧
      bpWnew.pages.getD 0 junkPage =
        { pageId := bpW.nextPageId, pinCount := 1, isDirty := false, data := 0 }) := by
  refine ⟨⟨by decide, by decide, by decide, by decide⟩, ?_⟩
  exact (bp_dirty_victim_flushed id (fun _ => 0) 5 bpW 0 bpWrep0 (by decide) (by decide)
    (by decide)).1 (some 6) bpWnew [(5, 42)] (by decide)

/-- C2 (refuting evaluation for the original claim): `DeletePgImp` on the
dirty, unpinned page 5 succeeds, pushes the frame to the free list and
resets it, but emits no `WritePage` at all — the dirty contents are lost
rather than flushed before the frame is freed. -/
theorem bp_delete_page_does_not_flush :
    (bpW.pages.getD 0 junkPage).isDirty = true ∧
    (DeletePgImp id bpW 5).1 = true ∧
    (DeletePgImp id bpW 5).2.2 = [] ∧
    (DeletePgImp id bpW 5).2.1.freeList = [0] ∧
    (DeletePgImp id bpW 5).2.1.pages.getD 0 junkPage =
      { pageId := -1, pinCount := 0, isDirty := false, data := 0 } := by
  refine ⟨rfl, rfl, rfl, rfl, rfl⟩

end BP

/-! ## B+ tree (`src/storage/index/b_plus_tree.cpp`,
`src/storage/page/b_plus_tree_leaf_page.cpp`,
`src/storage/page/b_plus_tree_internal_page.cpp`)

Pages are owned by the buffer pool and referenced by page id; the model
keeps them in an association list `store : List (Int × Node)` keyed by page
id (`INVALID_PAGE_ID = -1`).  Keys are `Nat` (the comparator is the natural
order); leaf values (RIDs) and internal child pointers are both `Int`.
A node's live entry prefix `array_[0..size)` is the list `entries`;
`GetSize()` is its length.  Latching, pinning and the transaction page set
are concurrency bookkeeping with no effect on the sequential state and are
dropped; the model follows the `transaction == nullptr` code paths (parents
are reached through `GetParentPageId()`).  Descents and the split/merge
loops carry fuel; the source's loops terminate on every well-formed tree,
and all theorems quantify over sufficient fuel. -/

namespace BPT

structure Node where
  isLeaf : Bool
  entries : List (Nat × Int)
  maxSize : Nat
  parent : Int
  next : Int
deriving Repr, DecidableEq

/-- Modelled from the spec: `GetMinSize` is implemented in
`b_plus_tree_page.cpp`, which is not among the sources; the spec fixes
`min_size = ⌈max_size/2⌉` (scenario: `leaf_max_size=3` has `min_size=2`). -/
def Node.minSize (n : Node) : Nat := (n.maxSize + 1) / 2

structure Tree where
  store : List (Int × Node)
  root : Int
  leafMaxSize : Nat
  internalMaxSize : Nat
  nextPageId : Int
deriving Repr, DecidableEq

def getNode (t : Tree) (pid : Int) : Option Node := t.store.lookup pid

def updateAssoc : List (Int × Node) → Int → Node → List (Int × Node)
  | [], _, _ => []
  | (q, m) :: rest, pid, n => if q = pid then (q, n) :: rest else (q, m) :: updateAssoc rest pid n

def setNode (t : Tree) (pid : Int) (n : Node) : Tree :=
  { t with store := updateAssoc t.store pid n }

/-- `BufferPoolManager::NewPage` from the tree's point of view: a fresh,
monotonically increasing page id. -/
def addNode (t : Tree) (n : Node) : Tree :=
  { t with store := t.store ++ [(t.nextPageId, n)], nextPageId := t.nextPageId + 1 }

/-- `BufferPoolManager::DeletePage` from the tree's point of view. -/
def delNode (t : Tree) (pid : Int) : Tree :=
  { t with store := t.store.filter (fun p => p.1 ≠ pid) }

/-- `BPlusTreeLeafPage::KeyIndexOf`: scan indices `size-1 .. 0`, first hit
wins (`INVALID_PAGE_ID = -1` when absent). -/
def keyIndexOf (entries : List (Nat × Int)) (key : Nat) : Int :=
  match (List.range entries.length).reverse.find?
      (fun i => (entries.getD i (0, 0)).1 = key) with
  | some i => Int.ofNat i
  | none => -1

/-- `BPlusTreeLeafPage::IsDuplicateKeyL`. -/
def isDuplicateKeyL (entries : List (Nat × Int)) (key : Nat) : Bool :=
  entries.any (fun p => p.1 = key)

/-- `BPlusTreeLeafPage::InsertL`: duplicate check, then shift the maximal
suffix of entries with key `≥ key` one slot right and place `(key, v)`
before it (`none` models the `false` return). -/
def leafInsertL (entries : List (Nat × Int)) (key : Nat) (v : Int) :
    Option (List (Nat × Int)) :=
  if isDuplicateKeyL entries key then none
  else
    let n := (entries.reverse.takeWhile (fun p => key ≤ p.1)).length
    let pos := entries.length - n
    some (entries.take pos ++ [(key, v)] ++ entries.drop pos)

/-- `BPlusTreeInternalPage::InsertL`: same shifting loop, but it never
examines or displaces slot 0 (whose key is unused); the insertion position
is at least 1.  (On a size-0 internal page the source writes `array_[1]`,
which no caller reaches; the model inserts the sole entry.) -/
def internalInsertL (entries : List (Nat × Int)) (key : Nat) (v : Int) : List (Nat × Int) :=
  match entries with
  | [] => [(key, v)]
  | e0 :: rest =>
    let n := (rest.reverse.takeWhile (fun p => key ≤ p.1)).length
    let pos := rest.length - n
    e0 :: (rest.take pos ++ [(key, v)] ++ rest.drop pos)

/-- `BPlusTreeLeafPage::Remove` (by key, via `KeyIndexOf`). -/
def leafRemove (entries : List (Nat × Int)) (key : Nat) : List (Nat × Int) :=
  let idx := keyIndexOf entries key
  if idx = -1 then entries
  else entries.take idx.toNat ++ entries.drop (idx.toNat + 1)

/-- `BPlusTreeInternalPage::RemoveIndex`. -/
def removeIndex (entries : List (Nat × Int)) (i : Nat) : List (Nat × Int) :=
  entries.take i ++ entries.drop (i + 1)

/-- `BPlusTreeInternalPage::FindChild`: scan keys `size-1 .. 1` for the
first `≤ key`; fall back to child 0. -/
def findChild (n : Node) (key : Nat) : Int :=
  match (n.entries.drop 1).reverse.find? (fun p => p.1 ≤ key) with
  | some p => p.2
  | none => (n.entries.headD (0, -1)).2

/-- `BPlusTreeInternalPage::FindChildIndex` (`-1` when absent). -/
def findChildIndex (n : Node) (pid : Int) : Int :=
  match (List.range n.entries.length).find?
      (fun i => (n.entries.getD i (0, 0)).2 = pid) with
  | some i => Int.ofNat i
  | none => -1

/-- `BPlusTreeInternalPage::SetKeyAt`. -/
def setKeyAt (entries : List (Nat × Int)) (i : Nat) (k : Nat) : List (Nat × Int) :=
  match entries.get? i with
  | none => entries
  | some (_, v) => entries.set i (k, v)

/-- The descent of `FindLeafPage` / `GetValue` / `Begin(key)`. -/
def descend (t : Tree) (key : Nat) : Nat → Int → Option (Int × Node)
  | 0, _ => none
  | fuel + 1, pid =>
    match getNode t pid with
    | none => none
    | some n => if n.isLeaf then some (pid, n) else descend t key fuel (findChild n key)

/-- `BPlusTree::FindLeafPage` (nullptr on an empty tree). -/
def findLeafPage (t : Tree) (key : Nat) (fuel : Nat) : Option (Int × Node) :=
  if t.root = -1 then none else descend t key fuel t.root

/-- `BPlusTree::GetValue`. -/
def getValue (t : Tree) (key : Nat) (fuel : Nat) : Option Int :=
  match findLeafPage t key fuel with
  | none => none
  | some (pid, leaf) =>
    let idx := keyIndexOf leaf.entries key
    if idx = -1 then none else some ((leaf.entries.getD idx.toNat (0, 0)).2)

/-- The `SetParentPageId` loops of `BPlusTreeInternalPage::SplitL` and of
`Remove`'s root-shrink branch: fetch each listed child and point its parent
at `x`. -/
def reparentAll (x : Int) (t : Tree) (cs : List Int) : Tree :=
  cs.foldl (fun acc c =>
    match getNode acc c with
    | none => acc
    | some cn => setNode acc c { cn with parent := x }) t

/-- `SplitL` (leaf or internal) plus the allocation of the right page:
keep `[0, min_size)` on the left page, move `[min_size, size)` to the fresh
right page; a leaf split links the right page into the next-page chain.
An internal split re-parents to the fresh page the children listed in
slots `[0, right_size)` of the *old* array — after `SetSize(split_index)`
those slots still physically hold the original entries, so the re-parented
children are `(ValueAt of original entries).take right_size` (this re-parents
left-hand children instead of the moved ones; the model reproduces the
source faithfully).  Returns `(state, right page id, right's first key)`. -/
def splitStep (t : Tree) (pid : Int) : Option (Tree × Int × Nat) :=
  match getNode t pid with
  | none => none
  | some cur =>
    let fresh := t.nextPageId
    let splitIndex := cur.minSize
    if cur.isLeaf then
      let right : Node := { isLeaf := true, entries := cur.entries.drop splitIndex,
                            maxSize := cur.maxSize, parent := cur.parent, next := cur.next }
      let left : Node := { cur with entries := cur.entries.take splitIndex, next := fresh }
      let t1 := setNode (addNode t right) pid left
      some (t1, fresh, (right.entries.headD (0, 0)).1)
    else
      let right : Node := { isLeaf := false, entries := cur.entries.drop splitIndex,
                            maxSize := cur.maxSize, parent := cur.parent, next := -1 }
      let left : Node := { cur with entries := cur.entries.take splitIndex }
      let t1 := setNode (addNode t right) pid left
      let reparented := (cur.entries.take right.entries.length).map (fun p => p.2)
      some (reparentAll fresh t1 reparented, fresh, (right.entries.headD (0, 0)).1)

/-- One iteration of `Insert`'s split loop on an overflowing node `cur` at
`curPid`: convert the root first when `cur` is the root page (a fresh page
receives the root's payload and the root page becomes an internal node with
one child pointer — the root page id is preserved), then split and insert
`(right.firstKey, right.pageId)` into the parent reached through
`GetParentPageId()`.  Returns the parent page id as the next loop node. -/
def splitLoopBodyCore (t0 : Tree) (pid0 : Int) (parent0 : Int) : Option (Tree × Int) :=
  match splitStep t0 pid0 with
  | none => none
  | some (t1, fresh2, newKey) =>
    match getNode t1 parent0 with
    | none => none
    | some p =>
      some (setNode t1 parent0
        { p with entries := internalInsertL p.entries newKey fresh2 }, parent0)

def splitLoopBody (t : Tree) (curPid : Int) (cur : Node) : Option (Tree × Int) :=
  if cur.parent = -1 then
    let fresh := t.nextPageId
    let newNode : Node :=
      if cur.isLeaf then
        { isLeaf := true, entries := cur.entries, maxSize := t.leafMaxSize,
          parent := t.root, next := -1 }
      else
        { isLeaf := false, entries := cur.entries, maxSize := t.internalMaxSize,
          parent := t.root, next := -1 }
    let rootIntern : Node :=
      { isLeaf := false, entries := [((newNode.entries.headD (0, 0)).1, fresh)],
        maxSize := t.internalMaxSize, parent := -1, next := -1 }
    splitLoopBodyCore (setNode (addNode t newNode) curPid rootIntern) fresh newNode.parent
  else splitLoopBodyCore t curPid cur.parent

/-- `Insert`'s `while (true)` split loop. -/
def splitLoop (t : Tree) (curPid : Int) : Nat → Option Tree
  | 0 => none
  | fuel + 1 =>
    match getNode t curPid with
    | none => none
    | some cur =>
      if cur.entries.length ≤ cur.maxSize then some t
      else
        match splitLoopBody t curPid cur with
        | none => none
        | some (t', nextPid) => splitLoop t' nextPid fuel

def insertAtLeaf (t : Tree) (pid : Int) (leaf : Node) (key : Nat) (v : Int) (fuel : Nat) :
    Option (Bool × Tree) :=
  match leafInsertL leaf.entries key v with
  | none => some (false, t)
  | some entries1 =>
    match splitLoop (setNode t pid { leaf with entries := entries1 }) pid fuel with
    | none => none
    | some t2 => some (true, t2)

/-- `BPlusTree::Insert`: create the root leaf when the tree is empty, find
the leaf, `InsertL` (duplicate → `false`), then the split loop. -/
def insert (t : Tree) (key : Nat) (v : Int) (fuel : Nat) : Option (Bool × Tree) :=
  match findLeafPage t key fuel with
  | some (pid, leaf) => insertAtLeaf t pid leaf key v fuel
  | none =>
    if t.root = -1 then
      let fresh := t.nextPageId
      let rootLeaf : Node := { isLeaf := true, entries := [], maxSize := t.leafMaxSize,
                               parent := -1, next := -1 }
      let t1 := { addNode t rootLeaf with root := fresh }
      match findLeafPage t1 key fuel with
      | none => none
      | some (pid, leaf) => insertAtLeaf t1 pid leaf key v fuel
    else none

/-- The root-shrink branch of `Remove`: an internal root of size 1 copies
its sole child's payload into the root page (preserving `root_page_id`) and
deletes the child. -/
def rootPromote (t : Tree) (curPid : Int) (cur : Node) : Option Tree :=
  match cur.entries.head? with
  | none => none
  | some e0 =>
    match getNode t e0.2 with
    | none => none
    | some child =>
      if child.isLeaf then
        let newRoot : Node := { isLeaf := true, entries := child.entries,
                                maxSize := t.leafMaxSize, parent := -1, next := -1 }
        some (delNode (setNode t curPid newRoot) e0.2)
      else
        let newRoot : Node := { isLeaf := false, entries := child.entries,
                                maxSize := t.internalMaxSize, parent := -1, next := cur.next }
        let t1 := setNode t curPid newRoot
        let t2 := reparentAll curPid t1 (child.entries.map (fun p => p.2))
        some (delNode t2 e0.2)

/-- The redistribute / merge step of `Remove` on an underflowing non-root
node: pick the sibling pair `(left, right)` through the parent (the left
one when `cur` is the rightmost child), then move one entry across or merge
right into left.  Returns the parent page id as the next loop node. -/
def mergeStep (t : Tree) (curPid : Int) (cur : Node) : Option (Tree × Int) :=
  match getNode t cur.parent with
  | none => none
  | some parent =>
    let curIndex := findChildIndex parent curPid
    let index : Int := if curIndex = (parent.entries.length : Int) - 1 then curIndex - 1
      else curIndex
    if index < 0 then none
    else
      match parent.entries.get? index.toNat, parent.entries.get? (index.toNat + 1) with
      | some le, some re =>
        match getNode t le.2, getNode t re.2 with
        | some left, some right =>
          if left.minSize * 2 ≤ left.entries.length + right.entries.length then
            -- redistribute
            if left.isLeaf then
              if left.entries.length < right.entries.length then
                match right.entries.head? with
                | none => none
                | some mv =>
                  let left1 := { left with entries := left.entries ++ [mv] }
                  let right1 := { right with entries := leafRemove right.entries mv.1 }
                  let fi := findChildIndex parent re.2
                  if fi < 0 then none
                  else
                    let pes := setKeyAt parent.entries fi.toNat
                      ((right1.entries.headD (0, 0)).1)
                    let parent1 := { parent with entries := pes }
                    some (setNode (setNode (setNode t le.2 left1) re.2 right1)
                      cur.parent parent1, cur.parent)
              else
                match left.entries.getLast? with
                | none => none
                | some mv =>
                  let right1 := { right with entries := mv :: right.entries }
                  let left1 := { left with entries := leafRemove left.entries mv.1 }
                  let fi := findChildIndex parent re.2
                  if fi < 0 then none
                  else
                    let pes := setKeyAt parent.entries fi.toNat
                      ((right1.entries.headD (0, 0)).1)
                    let parent1 := { parent with entries := pes }
                    some (setNode (setNode (setNode t le.2 left1) re.2 right1)
                      cur.parent parent1, cur.parent)
            else
              -- internal redistribution re-parents the moved child
              if left.entries.length < right.entries.length then
                match right.entries.head? with
                | none => none
                | some mv =>
                  match getNode t mv.2 with
                  | none => none
                  | some child =>
                    let left1 := { left with entries := left.entries ++ [mv] }
                    -- SetKeyAt(0, child.KeyAt(0)) is overwritten by RemoveIndex(0)
                    let right1 := { right with entries := right.entries.drop 1 }
                    let fi := findChildIndex parent re.2
                    if fi < 0 then none
                    else
                      let pes := setKeyAt parent.entries fi.toNat
                        ((right1.entries.headD (0, 0)).1)
                      let parent1 := { parent with entries := pes }
                      some (setNode (setNode (setNode (setNode t mv.2
                        { child with parent := le.2 }) le.2 left1) re.2 right1)
                        cur.parent parent1, cur.parent)
              else
                match left.entries.getLast? with
                | none => none
                | some mv =>
                  match getNode t mv.2 with
                  | none => none
                  | some child =>
                    let right1 := { right with entries := mv :: right.entries }
                    let left1 := { left with entries := left.entries.dropLast }
                    let fi := findChildIndex parent re.2
                    if fi < 0 then none
                    else
                      let pes := setKeyAt parent.entries fi.toNat
                        ((right1.entries.headD (0, 0)).1)
                      let parent1 := { parent with entries := pes }
                      some (setNode (setNode (setNode (setNode t mv.2
                        { child with parent := re.2 }) le.2 left1) re.2 right1)
                        cur.parent parent1, cur.parent)
          else
            -- merge right into left
            if left.isLeaf then
              let les := left.entries ++ right.entries
              let left1 := { left with entries := les, next := right.next }
              let fi := findChildIndex parent re.2
              if fi < 0 then none
              else
                let parent1 := { parent with entries := removeIndex parent.entries fi.toNat }
                some (delNode (setNode (setNode t le.2 left1) cur.parent parent1) re.2,
                  cur.parent)
            else
              -- each moved entry's key is replaced by its child's first key,
              -- and the child is re-parented to the left page
              match right.entries.foldlM (fun (acc : Tree × List (Nat × Int)) e =>
                  match getNode acc.1 e.2 with
                  | none => none
                  | some child =>
                    some (setNode acc.1 e.2 { child with parent := le.2 },
                      acc.2 ++ [((child.entries.headD (0, 0)).1, e.2)])) (t, []) with
              | none => none
              | some (tr, moved) =>
                let left1 := { left with entries := left.entries ++ moved }
                let fi := findChildIndex parent re.2
                if fi < 0 then none
                else
                  let parent1 := { parent with entries := removeIndex parent.entries fi.toNat }
                  some (delNode (setNode (setNode tr le.2 left1) cur.parent parent1) re.2,
                    cur.parent)
        | _, _ => none
      | _, _ => none

/-- `Remove`'s merge loop. -/
def mergeLoop (t : Tree) (curPid : Int) : Nat → Option Tree
  | 0 => none
  | fuel + 1 =>
    match getNode t curPid with
    | none => none
    | some cur =>
      if cur.minSize ≤ cur.entries.length then some t
      else if cur.parent = -1 then
        if cur.isLeaf then some t
        else if 2 ≤ cur.entries.length then some t
        else rootPromote t curPid cur
      else
        match mergeStep t curPid cur with
        | none => none
        | some (t1, nextPid) => mergeLoop t1 nextPid fuel

/-- `BPlusTree::Remove`. -/
def remove (t : Tree) (key : Nat) (fuel : Nat) : Option Tree :=
  match findLeafPage t key fuel with
  | none => some t
  | some (pid, leaf) =>
    mergeLoop (setNode t pid { leaf with entries := leafRemove leaf.entries key }) pid fuel

theorem lookup_consB (x a : Int) (b : Node) (l : List (Int × Node)) :
    List.lookup x ((a, b) :: l) = if x = a then some b else List.lookup x l := by
  by_cases h : x = a
  · rw [if_pos h]
    subst h
    simp [List.lookup]
  · rw [if_neg h, List.lookup, show (x == a) = false from by simpa using h]

theorem lookup_append (x : Int) (l1 l2 : List (Int × Node)) :
    List.lookup x (l1 ++ l2) =
      match List.lookup x l1 with
      | some v => some v
      | none => List.lookup x l2 := by
  induction l1 with
  | nil => simp [List.lookup]
  | cons hd tl ih =>
    rcases hd with ⟨a, b⟩
    rw [List.cons_append, lookup_consB, lookup_consB]
    by_cases h : x = a
    · rw [if_pos h, if_pos h]
    · rw [if_neg h, if_neg h, ih]

theorem lookup_updateAssoc_self (l : List (Int × Node)) (pid : Int) (n m : Node)
    (h : List.lookup pid l = some m) :
    List.lookup pid (updateAssoc l pid n) = some n := by
  induction l with
  | nil => simp [List.lookup] at h
  | cons hd tl ih =>
    rcases hd with ⟨a, b⟩
    rw [lookup_consB] at h
    by_cases hx : pid = a
    · rw [updateAssoc, if_pos hx.symm, lookup_consB, if_pos hx]
    · rw [updateAssoc, if_neg (fun hh => hx hh.symm), lookup_consB, if_neg hx]
      rw [if_neg hx] at h
      exact ih h

theorem lookup_updateAssoc_ne (l : List (Int × Node)) (pid q : Int) (n : Node)
    (h : q ≠ pid) :
    List.lookup q (updateAssoc l pid n) = List.lookup q l := by
  induction l with
  | nil => rfl
  | cons hd tl ih =>
    rcases hd with ⟨a, b⟩
    by_cases ha : a = pid
    · rw [updateAssoc, if_pos ha, lookup_consB, lookup_consB]
      by_cases hq : q = a
      · exact absurd (hq.trans ha) h
      · rw [if_neg hq, if_neg hq]
    · rw [updateAssoc, if_neg ha, lookup_consB, lookup_consB]
      by_cases hq : q = a
      · rw [if_pos hq, if_pos hq]
      · rw [if_neg hq, if_neg hq, ih]

theorem lookup_memB (l : List (Int × Node)) (x : Int) (v : Node)
    (h : List.lookup x l = some v) : (x, v) ∈ l := by
  induction l with
  | nil => simp [List.lookup] at h
  | cons hd tl ih =>
    rcases hd with ⟨a, b⟩
    rw [lookup_consB] at h
    by_cases hx : x = a
    · rw [if_pos hx] at h
      subst hx
      cases h
      exact List.mem_cons_self _ _
    · rw [if_neg hx] at h
      exact List.mem_cons_of_mem _ (ih h)

theorem lookup_noneB (l : List (Int × Node)) (x : Int)
    (h : ∀ p ∈ l, p.1 ≠ x) : List.lookup x l = none := by
  induction l with
  | nil => rfl
  | cons hd tl ih =>
    rcases hd with ⟨a, b⟩
    rw [lookup_consB, if_neg (fun he => (h (a, b) (List.mem_cons_self _ _)) he.symm)]
    exact ih (fun p hp => h p (List.mem_cons_of_mem _ hp))

theorem getNode_setNode_self (t : Tree) (pid : Int) (n m : Node)
    (h : getNode t pid = some m) : getNode (setNode t pid n) pid = some n :=
  lookup_updateAssoc_self t.store pid n m h

theorem getNode_setNode_ne (t : Tree) (pid q : Int) (n : Node) (h : q ≠ pid) :
    getNode (setNode t pid n) q = getNode t q :=
  lookup_updateAssoc_ne t.store pid q n h

theorem getNode_addNode (t : Tree) (n : Node) (q : Int) :
    getNode (addNode t n) q =
      match getNode t q with
      | some v => some v
      | none => if q = t.nextPageId then some n else none := by
  cases h : getNode t q with
  | some v =>
    show List.lookup q (t.store ++ [(t.nextPageId, n)]) = some v
    rw [lookup_append, show List.lookup q t.store = some v from h]
  | none =>
    show List.lookup q (t.store ++ [(t.nextPageId, n)]) =
      if q = t.nextPageId then some n else none
    rw [lookup_append, show List.lookup q t.store = none from h, lookup_consB]
    rfl

/-- The separator a split propagates: the right half's first key. -/
def splitNewKey (cur : Node) : Nat := ((cur.entries.drop cur.minSize).headD (0, 0)).1

/-- C4: an overflowing (non-root) leaf splits at `min_size`: the left
(original) page keeps entries `[0, min_size)` and now links to the freshly
allocated right page, the right page holds `[min_size, size)` and inherits
the left's old `next_page_id`, and `(right's first key, right's page id)`
is inserted into the parent internal page. -/
theorem bpt_leaf_split_behavior (t : Tree) (pid : Int) (cur p : Node)
    (hfresh : ∀ q ∈ t.store, q.1 < t.nextPageId)
    (hget : getNode t pid = some cur)
    (hleaf : cur.isLeaf = true)
    (hover : cur.maxSize < cur.entries.length)
    (hroot : cur.parent ≠ -1)
    (hne : pid ≠ cur.parent)
    (hp : getNode t cur.parent = some p) :
    ∃ t2, splitLoopBody t pid cur = some (t2, cur.parent) ∧
      getNode t2 pid =
        some { cur with entries := cur.entries.take cur.minSize, next := t.nextPageId } ∧
      getNode t2 t.nextPageId =
        some { isLeaf := true, entries := cur.entries.drop cur.minSize, maxSize := cur.maxSize, parent := cur.parent, next := cur.next } ∧
      getNode t2 cur.parent =
        some { p with entries := internalInsertL p.entries (splitNewKey cur) t.nextPageId } := by
  have hpidlt : pid < t.nextPageId := hfresh (pid, cur) (lookup_memB t.store pid cur hget)
  have hparlt : cur.parent < t.nextPageId :=
    hfresh (cur.parent, p) (lookup_memB t.store cur.parent p hp)
  have hfne : (t.nextPageId : Int) ≠ pid := by omega
  have hfnepar : (t.nextPageId : Int) ≠ cur.parent := by omega
  have hparne : cur.parent ≠ pid := fun hh => hne hh.symm
  -- the fresh page is not yet in the store
  have hfree : getNode t t.nextPageId = none :=
    lookup_noneB t.store t.nextPageId (fun q hq => by
      have := hfresh q hq
      omega)
  -- the state after `splitStep`
  set right : Node := { isLeaf := true, entries := cur.entries.drop cur.minSize, maxSize := cur.maxSize, parent := cur.parent, next := cur.next } with hright
  set left : Node := { cur with entries := cur.entries.take cur.minSize, next := t.nextPageId } with hleft
  have h1get : getNode (setNode (addNode t right) pid left) cur.parent = some p := by
    rw [getNode_setNode_ne _ _ _ _ hparne, getNode_addNode, hp]
  have h1pid : getNode (setNode (addNode t right) pid left) pid = some left := by
    apply getNode_setNode_self
    rw [getNode_addNode, hget]
  have h1fresh : getNode (setNode (addNode t right) pid left) t.nextPageId = some right := by
    rw [getNode_setNode_ne _ _ _ _ hfne, getNode_addNode, hfree]
    simp
  refine ⟨setNode (setNode (addNode t right) pid left) cur.parent { p with entries := internalInsertL p.entries (splitNewKey cur) t.nextPageId }, ?_, ?_, ?_, ?_⟩
  · show splitLoopBody t pid cur = _
    rw [splitLoopBody, if_neg hroot, splitLoopBodyCore, splitStep, hget]
    simp only [if_pos hleaf]
    rw [h1get]
    rfl
  · rw [getNode_setNode_ne _ _ _ _ hne, h1pid]
  · rw [getNode_setNode_ne _ _ _ _ hfnepar, h1fresh]
  · exact getNode_setNode_self _ _ _ _ h1get

/-- A concrete two-level tree whose rightmost leaf (page 3) overflows. -/
def tW4 : Tree :=
  { store := [(1, { isLeaf := false, entries := [(0, 2), (5, 3)], maxSize := 3,
                    parent := -1, next := -1 }),
              (2, { isLeaf := true, entries := [(1, 10), (2, 20)], maxSize := 3,
                    parent := 1, next := 3 }),
              (3, { isLeaf := true, entries := [(5, 50), (6, 60), (7, 70), (8, 80)],
                    maxSize := 3, parent := 1, next := -1 })],
    root := 1, leafMaxSize := 3, internalMaxSize := 3, nextPageId := 4 }

def tW4Leaf : Node :=
  { isLeaf := true, entries := [(5, 50), (6, 60), (7, 70), (8, 80)], maxSize := 3,
    parent := 1, next := -1 }

def tW4Root : Node :=
  { isLeaf := false, entries := [(0, 2), (5, 3)], maxSize := 3, parent := -1, next := -1 }

theorem bpt_leaf_split_behavior_witness :
    getNode tW4 3 = some tW4Leaf ∧
    ∃ t2, splitLoopBody tW4 3 tW4Leaf = some (t2, tW4Leaf.parent) ∧
      getNode t2 3 =
        some { tW4Leaf with entries := tW4Leaf.entries.take tW4Leaf.minSize, next := tW4.nextPageId } ∧
      getNode t2 tW4.nextPageId =
        some { isLeaf := true, entries := tW4Leaf.entries.drop tW4Leaf.minSize, maxSize := tW4Leaf.maxSize, parent := tW4Leaf.parent, next := tW4Leaf.next } ∧
      getNode t2 tW4Leaf.parent =
        some { tW4Root with entries := internalInsertL tW4Root.entries (splitNewKey tW4Leaf) tW4.nextPageId } :=
  ⟨by decide,
    bpt_leaf_split_behavior tW4 3 tW4Leaf tW4Root (by decide) (by decide) (by decide)
      (by decide) (by decide) (by decide) (by decide)⟩


theorem reparentAll_root (x : Int) (cs : List Int) :
    ∀ t : Tree, (reparentAll x t cs).root = t.root := by
  induction cs with
  | nil => intro t; rfl
  | cons c cs ih =>
    intro t
    have h1 : reparentAll x t (c :: cs) =
        reparentAll x (match getNode t c with
          | none => t
          | some cn => setNode t c { cn with parent := x }) cs := rfl
    rw [h1, ih]
    cases hg : getNode t c with
    | none => rfl
    | some cn => rfl

theorem splitStep_root (t : Tree) (pid : Int) (t1 : Tree) (f : Int) (K : Nat)
    (h : splitStep t pid = some (t1, f, K)) : t1.root = t.root := by
  simp only [splitStep] at h
  cases hg : getNode t pid with
  | none => rw [hg] at h; cases h
  | some cur =>
    rw [hg] at h
    by_cases hl : cur.isLeaf = true
    · simp only [if_pos hl, Option.some.injEq, Prod.mk.injEq] at h
      obtain ⟨rfl, -⟩ := h
      rfl
    · simp only [if_neg hl, Option.some.injEq, Prod.mk.injEq] at h
      obtain ⟨rfl, -⟩ := h
      exact reparentAll_root _ _ _

theorem splitLoopBodyCore_root (t0 : Tree) (pid0 : Int) (parent0 : Int) (t1 : Tree) (np : Int)
    (h : splitLoopBodyCore t0 pid0 parent0 = some (t1, np)) : t1.root = t0.root := by
  rw [splitLoopBodyCore] at h
  cases hs : splitStep t0 pid0 with
  | none => rw [hs] at h; cases h
  | some r =>
    rcases r with ⟨t2, fresh2, newKey⟩
    rw [hs] at h
    cases hg : getNode t2 parent0 with
    | none => simp only [hg] at h; cases h
    | some p =>
      simp only [hg, Option.some.injEq, Prod.mk.injEq] at h
      obtain ⟨rfl, -⟩ := h
      exact splitStep_root t0 pid0 t2 fresh2 newKey hs

theorem splitLoopBody_root (t : Tree) (curPid : Int) (cur : Node) (t1 : Tree) (np : Int)
    (h : splitLoopBody t curPid cur = some (t1, np)) : t1.root = t.root := by
  simp only [splitLoopBody] at h
  by_cases hr : cur.parent = -1
  · rw [if_pos hr] at h
    have h2 := splitLoopBodyCore_root _ _ _ _ _ h
    exact h2
  · rw [if_neg hr] at h
    have h2 := splitLoopBodyCore_root _ _ _ _ _ h
    exact h2

theorem splitLoop_root (fuel : Nat) : ∀ (t : Tree) (curPid : Int) (t2 : Tree),
    splitLoop t curPid fuel = some t2 → t2.root = t.root := by
  induction fuel with
  | zero => intro t c t2 h; cases h
  | succ fuel ih =>
    intro t c t2 h
    rw [splitLoop] at h
    cases hg : getNode t c with
    | none => rw [hg] at h; cases h
    | some cur =>
      rw [hg] at h
      by_cases hle : cur.entries.length ≤ cur.maxSize
      · simp only [if_pos hle, Option.some.injEq] at h
        rw [h.symm]
      · simp only [if_neg hle] at h
        cases hb : splitLoopBody t c cur with
        | none => rw [hb] at h; cases h
        | some r =>
          rcases r with ⟨t3, np⟩
          rw [hb] at h
          exact (ih t3 np t2 h).trans (splitLoopBody_root t c cur t3 np hb)

theorem insertAtLeaf_root (t : Tree) (pid : Int) (leaf : Node) (k : Nat) (v : Int)
    (fuel : Nat) (b : Bool) (t2 : Tree)
    (h : insertAtLeaf t pid leaf k v fuel = some (b, t2)) : t2.root = t.root := by
  rw [insertAtLeaf] at h
  cases he : leafInsertL leaf.entries k v with
  | none =>
    rw [he] at h
    cases h
    rfl
  | some es =>
    rw [he] at h
    cases hs : splitLoop (setNode t pid { leaf with entries := es }) pid fuel with
    | none => simp only [hs] at h; cases h
    | some t3 =>
      simp only [hs, Option.some.injEq, Prod.mk.injEq] at h
      obtain ⟨-, rfl⟩ := h
      have h3 := splitLoop_root fuel _ pid t3 hs
      exact h3

theorem foldlM_reparent_root (le2 : Int) (es : List (Nat × Int)) :
    ∀ (t : Tree) (acc0 : List (Nat × Int)) (tr : Tree) (mv : List (Nat × Int)),
    es.foldlM (fun (acc : Tree × List (Nat × Int)) e =>
        match getNode acc.1 e.2 with
        | none => none
        | some child =>
          some (setNode acc.1 e.2 { child with parent := le2 },
            acc.2 ++ [((child.entries.headD (0, 0)).1, e.2)])) (t, acc0) = some (tr, mv) →
      tr.root = t.root := by
  induction es with
  | nil =>
    intro t acc0 tr mv h
    simp only [List.foldlM, Option.some.injEq, Prod.mk.injEq, pure] at h
    obtain ⟨rfl, -⟩ := h
    rfl
  | cons e es ih =>
    intro t acc0 tr mv h
    simp only [List.foldlM] at h
    cases hg : getNode t e.2 with
    | none => simp only [hg] at h; cases h
    | some child =>
      simp only [hg, Option.bind_eq_bind, Option.some_bind] at h
      have h2 := ih _ _ tr mv h
      exact h2

theorem rootPromote_root (t : Tree) (curPid : Int) (cur : Node) (t2 : Tree)
    (h : rootPromote t curPid cur = some t2) : t2.root = t.root := by
  simp only [rootPromote] at h
  cases he : cur.entries.head? with
  | none => rw [he] at h; cases h
  | some e0 =>
    rw [he] at h
    cases hg : getNode t e0.2 with
    | none => simp only [hg] at h; cases h
    | some child =>
      simp only [hg] at h
      by_cases hl : child.isLeaf = true
      · simp only [if_pos hl, Option.some.injEq] at h
        rw [h.symm]
        rfl
      · simp only [if_neg hl, Option.some.injEq] at h
        rw [h.symm]
        have h2 := reparentAll_root curPid (child.entries.map (fun p => p.2)) (setNode t curPid { isLeaf := false, entries := child.entries, maxSize := t.internalMaxSize, parent := -1, next := cur.next })
        exact h2

theorem mergeStep_root (t : Tree) (curPid : Int) (cur : Node) (t2 : Tree) (np : Int)
    (h : mergeStep t curPid cur = some (t2, np)) : t2.root = t.root := by
  simp only [mergeStep] at h
  repeat' split at h
  any_goals cases h
  any_goals rfl
  all_goals
    rename_i tr moved heqf hfi
  all_goals
    have h2 := foldlM_reparent_root _ _ _ _ _ _ heqf
  all_goals exact h2

theorem mergeLoop_root (fuel : Nat) : ∀ (t : Tree) (curPid : Int) (t2 : Tree),
    mergeLoop t curPid fuel = some t2 → t2.root = t.root := by
  induction fuel with
  | zero => intro t c t2 h; cases h
  | succ fuel ih =>
    intro t c t2 h
    rw [mergeLoop] at h
    cases hg : getNode t c with
    | none => rw [hg] at h; cases h
    | some cur =>
      rw [hg] at h
      by_cases h1 : cur.minSize ≤ cur.entries.length
      · simp only [if_pos h1, Option.some.injEq] at h
        rw [h.symm]
      · simp only [if_neg h1] at h
        by_cases h2 : cur.parent = -1
        · simp only [if_pos h2] at h
          by_cases h3 : cur.isLeaf = true
          · simp only [if_pos h3, Option.some.injEq] at h
            rw [h.symm]
          · simp only [if_neg h3] at h
            by_cases h4 : 2 ≤ cur.entries.length
            · simp only [if_pos h4, Option.some.injEq] at h
              rw [h.symm]
            · simp only [if_neg h4] at h
              exact rootPromote_root t c cur t2 h
        · simp only [if_neg h2] at h
          cases hm : mergeStep t c cur with
          | none => rw [hm] at h; cases h
          | some r =>
            rcases r with ⟨t3, np⟩
            rw [hm] at h
            exact (ih t3 np t2 h).trans (mergeStep_root t c cur t3 np hm)

/-- C5: on a non-empty tree, `Insert` and `Remove` never change
`root_page_id`: the root-overflow branch copies the root's payload to a new
page and turns the root page itself into an internal node, and the
root-shrink branch of `Remove` promotes the sole child's contents into the
root page; no other branch assigns `root_page_id_`. -/
theorem bpt_root_page_id_preserved (t : Tree) (k : Nat) (v : Int) (fuel : Nat)
    (hne : t.root ≠ -1) :
    (∀ b t2, insert t k v fuel = some (b, t2) → t2.root = t.root) ∧
    (∀ t2, remove t k fuel = some t2 → t2.root = t.root) := by
  constructor
  · intro b t2 h
    rw [insert] at h
    cases hf : findLeafPage t k fuel with
    | some r =>
      rcases r with ⟨pid, leaf⟩
      rw [hf] at h
      exact insertAtLeaf_root t pid leaf k v fuel b t2 h
    | none =>
      rw [hf] at h
      rw [if_neg hne] at h
      cases h
  · intro t2 h
    rw [remove] at h
    cases hf : findLeafPage t k fuel with
    | none =>
      rw [hf] at h
      cases h
      rfl
    | some r =>
      rcases r with ⟨pid, leaf⟩
      simp only [hf] at h
      have h2 := mergeLoop_root fuel _ pid t2 h
      exact h2

/-- A single-leaf root at its maximum size: inserting forces the
root-overflow conversion and split. -/
def tW5 : Tree :=
  { store := [(1, { isLeaf := true, entries := [(1, 10), (2, 20), (3, 30)], maxSize := 3, parent := -1, next := -1 })],
    root := 1, leafMaxSize := 3, internalMaxSize := 3, nextPageId := 2 }

theorem bpt_root_page_id_preserved_witness :
    tW5.root ≠ -1 ∧
    ∀ b t2, insert tW5 4 40 20 = some (b, t2) → t2.root = tW5.root :=
  ⟨by decide, (bpt_root_page_id_preserved tW5 4 40 20 (by decide)).1⟩



/-! ### A reachable state on which the re-parenting bug of
`BPlusTreeInternalPage::SplitL` becomes observable

`SplitL` re-parents the children listed in slots `[0, new_size)` of the
*old* page (`ValueAt(i)` is called on `this`, not on the new node), so
after an internal split the `parent_page_id_` fields of both halves'
children are wrong.  `Insert` with the default `transaction = nullptr`
walks up through `GetParentPageId()`, so a later leaf split posts its
separator into the wrong internal page. -/

def emptyTree6 : Tree :=
  { store := [], root := -1, leafMaxSize := 3, internalMaxSize := 3, nextPageId := 0 }

/-- Fold a key sequence through `Insert` (value `10 * k`), keeping the
state only while every insert returns `true`. -/
def insertAllTrue (t : Option Tree) (k : Nat) : Option Tree :=
  match t with
  | none => none
  | some t0 =>
    match insert t0 k (Int.ofNat (10 * k)) 50 with
    | some (true, t1) => some t1
    | _ => none

def keysA : List Nat := [50, 10, 90, 30, 70, 20, 80, 40, 60, 100, 110, 120, 130]

/-- The state after inserting `keysA` and then `11`: three levels, and the
leaf `[(10,100), (11,110), (20,200)]` at page 1 is full. -/
def tPre : Tree := ((keysA ++ [11]).foldl insertAllTrue (some emptyTree6)).getD emptyTree6

/-- `tPre` after `Insert(12, 120)`, which splits the page-1 leaf. -/
def tPost : Tree := ((insert tPre 12 120 50).getD (false, emptyTree6)).2

/-- C4 counterexample: in the reachable state `tPre` the full leaf at
page 1 is a child of the internal page 5 (page 5's child list is `[1, 4]`,
page 6's is `[2, 3]`), but its `parent_page_id_` field says 6 — an earlier
internal split re-pointed it.  `Insert(12, 120)` splits that leaf and posts
the separator `(12, new page 11)` into page 6 (making page 6's key list
`50, 12, 80` — not even sorted), while the true parent, page 5, is left
untouched: the separator is NOT inserted into the overflowing leaf's
parent. -/
theorem bpt_leaf_split_wrong_parent :
    ((keysA ++ [11]).foldl insertAllTrue (some emptyTree6)).isSome = true ∧
    (getNode tPre 1).map (fun n => (n.isLeaf, n.entries, n.parent)) =
      some (true, [(10, 100), (11, 110), (20, 200)], 6) ∧
    (getNode tPre 5).map (fun n => n.entries.map (fun p => p.2)) = some [1, 4] ∧
    (getNode tPre 6).map (fun n => n.entries.map (fun p => p.2)) = some [2, 3] ∧
    insert tPre 12 120 50 = some (true, tPost) ∧
    (getNode tPost 6).map (fun n => n.entries) = some [(50, 2), (12, 11), (80, 3)] ∧
    (getNode tPost 5).map (fun n => n.entries) = some [(10, 1), (30, 4)] := by
  refine ⟨rfl, rfl, rfl, rfl, rfl, rfl, rfl⟩

/-- The state after inserting `keysA ++ [11, 12]`, every insert returning
`true`. -/
def tB6 : Option Tree := (keysA ++ [11, 12]).foldl insertAllTrue (some emptyTree6)

/-- C6: REFUTED on the embedded code.  Fifteen `Insert`s (leaf and internal
max size 3, the default `transaction = nullptr` path) all return `true`,
yet afterwards `GetValue` returns nothing for the inserted keys 20, 12 and
50, and re-inserting key 20 is accepted again (returns `true`) instead of
returning `false`: the stale-array re-parenting in
`BPlusTreeInternalPage::SplitL` made a leaf split post its separator into
the wrong internal page, corrupting the search order. -/
theorem bpt_duplicate_insert_getvalue_bug :
    tB6.isSome = true ∧
    getValue (tB6.getD emptyTree6) 20 50 = none ∧
    getValue (tB6.getD emptyTree6) 12 50 = none ∧
    getValue (tB6.getD emptyTree6) 50 50 = none ∧
    (insert (tB6.getD emptyTree6) 20 999 50).map Prod.fst = some true := by
  refine ⟨rfl, rfl, rfl, rfl, rfl⟩

end BPT

